import Mathlib

/-!
Verification of the subtitle core of `src/App.tsx`: the SRT parser `parseSrt`
(with its inner `parseTimestamp`), the block segmenter `createBlocks`, and the
aggregator `analyzeSrt`.

Embedding conventions:
* A JavaScript string is a `List Char`.  `String.trim`, `String.split`,
  `String.includes`, `parseInt` and `replace(/\r/g, '')` are modelled by the
  character-list functions below (`jsTrim`, `splitSeq`, `containsSeq`,
  `jsParseInt`, a `filter`).  Whitespace is `Char.isWhitespace`
  (space, tab, CR, LF — the characters relevant to subtitle files).
* A JavaScript number arising from a timestamp is an `Option ℚ`: `none`
  models `NaN` (produced by `parseInt` on a non-numeric field and absorbed
  by arithmetic), `some q` an ordinary value.  `parseInt`'s legacy `0x`
  prefix form never occurs in subtitle data and is not modelled.
* A thrown exception is `Except.error ()`; `parseSrt` throws exactly where
  the source dereferences `undefined` (`endStr.trim()` when the timing line
  has no `' --> '` separator, `s.split(',')` when a half has fewer than
  three `:`-separated fields).
* `Math.random()` draws of the segmenter are an explicit list of naturals,
  one consumed per call; a draw `r` yields `lo + r % (hi - lo + 1)`, so
  quantifying over all lists covers every sequence of uniform draws.
* The two source loops advance their cursor every iteration; they are
  embedded with an explicit fuel argument that the length of the input
  bounds, which keeps every definition structurally recursive and hence
  evaluable by `decide`/`rfl`.
-/

def str (s : String) : List Char := s.data

/-- JS `String.prototype.trim`: drop whitespace from both ends. -/
def jsTrim (l : List Char) : List Char :=
  ((l.dropWhile Char.isWhitespace).reverse.dropWhile Char.isWhitespace).reverse

/-- JS `String.prototype.includes`: does `sep` occur as a contiguous substring? -/
def containsSeq (sep : List Char) : List Char → Bool
  | [] => sep.isEmpty
  | c :: rest => sep.isPrefixOf (c :: rest) || containsSeq sep rest

/-- JS `String.prototype.split` on a non-empty separator, with fuel for
structural recursion (the caller passes the input's length, which always
suffices because at least one character is consumed per step). -/
def splitSeqGo (sep : List Char) : Nat → List Char → List (List Char)
  | _, [] => [[]]
  | 0, xs => [xs]
  | fuel + 1, c :: rest =>
    if sep.isPrefixOf (c :: rest) then
      [] :: splitSeqGo sep fuel ((c :: rest).drop sep.length)
    else
      match splitSeqGo sep fuel rest with
      | [] => [[c]]
      | h :: t => (c :: h) :: t

def splitSeq (sep xs : List Char) : List (List Char) := splitSeqGo sep xs.length xs

/-- JS `Array.prototype.join(sep)`. -/
def joinWith {α : Type} (sep : List α) : List (List α) → List α
  | [] => []
  | [a] => a
  | a :: b :: rest => a ++ sep ++ joinWith sep (b :: rest)

/-- Value of the leading run of decimal digits, `none` if there is none
(the digit-run part of JS `parseInt`). -/
def digitsVal (l : List Char) : Option Nat :=
  let ds := l.takeWhile Char.isDigit
  if ds.isEmpty then none else some (ds.foldl (fun a c => a * 10 + (c.toNat - 48)) 0)

/-- JS `parseInt(s)` (base 10): skip leading whitespace, optional sign,
value of the leading digit run; `none` is `NaN`. -/
def jsParseInt (l : List Char) : Option Int :=
  let t := l.dropWhile Char.isWhitespace
  if t.head? = some '-' then (digitsVal t.tail).map (fun n => -(n : Int))
  else if t.head? = some '+' then (digitsVal t.tail).map (fun n => (n : Int))
  else (digitsVal t).map (fun n => (n : Int))

/-- Number of maximal non-whitespace runs: the value of JS
`s.trim().split(/\s+/).filter(Boolean).length` used by `analyzeSrt`. -/
def tokenCountGo : Bool → List Char → Nat
  | _, [] => 0
  | inTok, c :: rest =>
    if c.isWhitespace then tokenCountGo false rest
    else (if inTok then 0 else 1) + tokenCountGo true rest

def tokenCount (l : List Char) : Nat := tokenCountGo false l

/-- The decimal digit character of `d` (for `d < 10`). -/
def digitChar : Nat → Char
  | 0 => '0' | 1 => '1' | 2 => '2' | 3 => '3' | 4 => '4'
  | 5 => '5' | 6 => '6' | 7 => '7' | 8 => '8' | _ => '9'

/-- Big-endian decimal digits of a positive `n`, with fuel (`n` itself
suffices since the argument at least halves each step). -/
def natDigitsGo : Nat → Nat → List Char
  | 0, _ => []
  | fuel + 1, n => if n = 0 then [] else natDigitsGo fuel (n / 10) ++ [digitChar (n % 10)]

/-- JS `String(n)` / template rendering of a natural number. -/
def natRepr (n : Nat) : List Char := if n = 0 then ['0'] else natDigitsGo n n

structure Subtitle where
  id : Int
  start : Option ℚ
  «end» : Option ℚ
  text : List Char
deriving DecidableEq

structure Block where
  id : List Char
  subtitles : List Subtitle
  text : List Char
  duration : Option ℚ
deriving DecidableEq

structure SrtAnalysis where
  totalSubtitles : Nat
  totalDurationSeconds : Option ℚ
  totalWords : Nat
  averageWPM : ℤ
  blockCount : Nat
deriving DecidableEq

/-- JS subtraction on possibly-NaN numbers. -/
def jsub : Option ℚ → Option ℚ → Option ℚ
  | some a, some b => some (a - b)
  | _, _ => none

/-- `parseTimestamp` of src/App.tsx lines 15-19.  Splitting on `':'` must give
at least three fields, otherwise `s.split(',')` dereferences `undefined` and
throws; a missing or non-numeric field makes the value `NaN` (`none`). -/
def parseTimestamp (ts : List Char) : Except Unit (Option ℚ) :=
  match splitSeq [':'] ts with
  | h :: m :: s :: _ =>
    let sp := splitSeq [','] s
    let sec := sp.headD []
    match jsParseInt h, jsParseInt m, jsParseInt sec, (sp.get? 1).bind jsParseInt with
    | some hv, some mv, some secv, some msv =>
      .ok (some ((hv : ℚ) * 3600 + (mv : ℚ) * 60 + (secv : ℚ) + (msv : ℚ) / 1000))
    | _, _, _, _ => .ok none
  | _ => .error ()

/-- The `while (i < lines.length)` loop of `parseSrt` (src/App.tsx lines
21-44), consuming the line list from the front (the source's cursor `i` only
moves forward).  One fuel unit is spent per iteration; `lines.length` bounds
the iteration count since every branch advances the cursor. -/
def parseLinesGo : Nat → List (List Char) → Except Unit (List Subtitle)
  | _, [] => .ok []
  | 0, _ :: _ => .error ()
  | fuel + 1, line :: rest =>
    match jsParseInt line with
    | none => parseLinesGo fuel rest
    | some id =>
      match rest with
      | [] => parseLinesGo fuel []
      | timeLine :: rest2 =>
        if timeLine = [] ∨ containsSeq (str "-->") timeLine = false then
          parseLinesGo fuel rest2
        else
          match splitSeq (str " --> ") timeLine with
          | startStr :: endStr :: _ =>
            let textLines := rest2.takeWhile (fun l => !(jsTrim l).isEmpty)
            let rest3 := (rest2.dropWhile (fun l => !(jsTrim l).isEmpty)).drop 1
            match parseTimestamp (jsTrim startStr), parseTimestamp (jsTrim endStr) with
            | .ok st, .ok en =>
              match parseLinesGo fuel rest3 with
              | .ok subs => .ok (⟨id, st, en, joinWith ['\n'] textLines⟩ :: subs)
              | .error e => .error e
            | _, _ => .error ()
          | _ => .error ()

/-- `parseSrt` of src/App.tsx lines 10-46: trim the input, strip `'\r'`,
split into lines, run the cursor loop. -/
def parseSrt (srtText : List Char) : Except Unit (List Subtitle) :=
  let lines := splitSeq ['\n'] ((jsTrim srtText).filter (fun c => c ≠ '\r'))
  parseLinesGo lines.length lines

/-- The `blockSize` computed by one iteration of `createBlocks` (src/App.tsx
lines 52-69): `remaining ≤ minBlockSize` takes everything; otherwise a random
draw in `[currentMin, currentMax]` (`r` is the raw draw, folded into the range
by `% (currentMax - currentMin + 1)`), overridden to `remaining` by the
look-ahead when a non-zero remainder smaller than `minBlockSize` would be
left. -/
def chooseBlockSize (minBlockSize maxBlockSize remaining r : Nat) : Nat :=
  let currentMin := min minBlockSize remaining
  let currentMax := min maxBlockSize remaining
  if remaining ≤ minBlockSize then remaining
  else
    let draw := currentMin + r % (currentMax - currentMin + 1)
    if remaining - currentMax < minBlockSize ∧ minBlockSize < remaining then
      if draw < remaining ∧ remaining - draw < minBlockSize then remaining else draw
    else draw

/-- The `while (i < subtitles.length)` loop of `createBlocks` (src/App.tsx
lines 48-89), consuming the subtitle list from the front.  `idx` counts the
blocks pushed so far (`blocks.length`).  One random draw is consumed per
iteration except in the take-all-remaining branch, which draws none.  Fuel
bounds the iteration count; `none` models an iteration budget overrun, which
under the documented precondition `1 ≤ minBlockSize` never happens with fuel
`subtitles.length`. -/
def createBlocksAux (minBlockSize maxBlockSize : Nat) :
    Nat → List Subtitle → List Nat → Nat → Option (List Block)
  | _, [], _, _ => some []
  | 0, _ :: _, _, _ => none
  | fuel + 1, rest@(_ :: _), rands, idx =>
    let blockSize := chooseBlockSize minBlockSize maxBlockSize rest.length (rands.headD 0)
    let rands' := if rest.length ≤ minBlockSize then rands else rands.tail
    let chunk := rest.take blockSize
    match chunk.head?, chunk.getLast? with
    | some firstSub, some lastSub =>
      (createBlocksAux minBlockSize maxBlockSize fuel (rest.drop blockSize)
          rands' (idx + 1)).map
        (fun bs =>
          { id := str "block-" ++ natRepr (idx + 1),
            subtitles := chunk,
            text := joinWith ['\n'] (chunk.map Subtitle.text),
            duration := jsub lastSub.«end» firstSub.start } :: bs)
    | _, _ =>
      createBlocksAux minBlockSize maxBlockSize fuel (rest.drop blockSize) rands' idx

def createBlocks (subtitles : List Subtitle) (minBlockSize maxBlockSize : Nat)
    (rands : List Nat) : Option (List Block) :=
  createBlocksAux minBlockSize maxBlockSize subtitles.length subtitles rands 0

/-- `analyzeSrt` of src/App.tsx lines 91-106.  `Math.round x` is
`⌊x + 1/2⌋`; the JS comparison `NaN > 0` is false, giving `averageWPM = 0`
when the last end time is `NaN`. -/
def analyzeSrt (subtitles : List Subtitle) (blocks : List Block) : SrtAnalysis :=
  match subtitles.getLast? with
  | none => ⟨0, some 0, 0, 0, 0⟩
  | some lastS =>
    let totalDurationSeconds := lastS.«end»
    let totalWords := subtitles.foldl (fun acc s => acc + tokenCount s.text) 0
    let averageWPM : ℤ :=
      match totalDurationSeconds with
      | some d => if 0 < d then ⌊(totalWords : ℚ) / d * 60 + 1 / 2⌋ else 0
      | none => 0
    ⟨subtitles.length, totalDurationSeconds, totalWords, averageWPM, blocks.length⟩

/-! ### Splitting lemmas -/

theorem splitSeqGo_nil (sep : List Char) (fuel : Nat) : splitSeqGo sep fuel [] = [[]] := by
  cases fuel <;> rfl

theorem isPrefixOf_append (l t : List Char) : l.isPrefixOf (l ++ t) = true := by
  induction l with
  | nil => simp [List.isPrefixOf]
  | cons c rest ih => simp [List.isPrefixOf, ih]

theorem isPrefixOf_cons_of_ne (s₀ c : Char) (sep' xs : List Char) (h : s₀ ≠ c) :
    (s₀ :: sep').isPrefixOf (c :: xs) = false := by
  simp [List.isPrefixOf, h]

theorem splitSeqGo_ne_nil (sep : List Char) :
    ∀ (fuel : Nat) (xs : List Char), splitSeqGo sep fuel xs ≠ [] := by
  intro fuel
  induction fuel with
  | zero => intro xs; cases xs <;> simp [splitSeqGo]
  | succ n ih =>
    intro xs
    cases xs with
    | nil => simp [splitSeqGo]
    | cons c rest =>
      simp only [splitSeqGo]
      split
      · simp
      · split
        · simp
        · simp

theorem splitSeqGo_fuel (sep : List Char) (hsep : sep ≠ []) :
    ∀ (f1 f2 : Nat) (xs : List Char),
      xs.length ≤ f1 → xs.length ≤ f2 → splitSeqGo sep f1 xs = splitSeqGo sep f2 xs := by
  intro f1
  induction f1 with
  | zero =>
    intro f2 xs h1 _
    have : xs = [] := List.length_eq_zero.mp (Nat.le_zero.mp h1)
    subst this
    rw [splitSeqGo_nil, splitSeqGo_nil]
  | succ n ih =>
    intro f2 xs h1 h2
    cases xs with
    | nil => rw [splitSeqGo_nil, splitSeqGo_nil]
    | cons c rest =>
      cases f2 with
      | zero => exact absurd h2 (by simp)
      | succ m =>
        have hs : 1 ≤ sep.length := by
          cases sep with
          | nil => exact absurd rfl hsep
          | cons a b => simp
        simp only [List.length_cons] at h1 h2
        simp only [splitSeqGo]
        split
        · have hlen : ((c :: rest).drop sep.length).length ≤ n := by
            simp only [List.length_drop, List.length_cons]
            omega
          have hlen2 : ((c :: rest).drop sep.length).length ≤ m := by
            simp only [List.length_drop, List.length_cons]
            omega
          rw [ih m ((c :: rest).drop sep.length) hlen hlen2]
        · have hr : rest.length ≤ n := by omega
          have hr2 : rest.length ≤ m := by omega
          rw [ih m rest hr hr2]

theorem splitSeqGo_no_sep (s₀ : Char) (sep' : List Char) :
    ∀ (fuel : Nat) (xs : List Char), s₀ ∉ xs → splitSeqGo (s₀ :: sep') fuel xs = [xs] := by
  intro fuel
  induction fuel with
  | zero => intro xs _; cases xs <;> rfl
  | succ n ih =>
    intro xs hx
    cases xs with
    | nil => rfl
    | cons c rest =>
      have hne : s₀ ≠ c := fun h => hx (h ▸ List.mem_cons_self c rest)
      have hrest : s₀ ∉ rest := fun h => hx (List.mem_cons_of_mem c h)
      simp only [splitSeqGo, isPrefixOf_cons_of_ne s₀ c sep' rest hne, if_neg]
      rw [ih rest hrest]
      simp

theorem splitSeq_no_sep (s₀ : Char) (sep' xs : List Char) (h : s₀ ∉ xs) :
    splitSeq (s₀ :: sep') xs = [xs] :=
  splitSeqGo_no_sep s₀ sep' xs.length xs h

theorem splitSeqGo_append_sep (s₀ : Char) (sep' : List Char) :
    ∀ (a : List Char) (fuel : Nat) (b : List Char), s₀ ∉ a →
      (a ++ (s₀ :: sep') ++ b).length ≤ fuel →
      splitSeqGo (s₀ :: sep') fuel (a ++ (s₀ :: sep') ++ b) =
        a :: splitSeqGo (s₀ :: sep') b.length b := by
  intro a
  induction a with
  | nil =>
    intro fuel b _ hlen
    simp only [List.nil_append, List.length_append, List.length_cons] at hlen
    cases fuel with
    | zero => omega
    | succ n =>
      have hpre : (s₀ :: sep').isPrefixOf (s₀ :: (sep' ++ b)) = true := by
        have := isPrefixOf_append (s₀ :: sep') b
        simpa using this
      have hdrop : (s₀ :: (sep' ++ b)).drop (s₀ :: sep').length = b := by
        have := List.drop_left (s₀ :: sep') b
        simpa using this
      have hb : b.length ≤ n := by omega
      show splitSeqGo (s₀ :: sep') (n + 1) (s₀ :: sep' ++ b) = _
      rw [List.cons_append]
      simp only [splitSeqGo, hpre, if_true, hdrop]
      rw [splitSeqGo_fuel (s₀ :: sep') (by simp) n b.length b hb (Nat.le_refl _)]
  | cons c a' ih =>
    intro fuel b ha hlen
    have hne : s₀ ≠ c := fun h => ha (h ▸ List.mem_cons_self c a')
    have ha' : s₀ ∉ a' := fun h => ha (List.mem_cons_of_mem c h)
    cases fuel with
    | zero => simp at hlen
    | succ n =>
      simp only [List.cons_append] at hlen ⊢
      simp only [splitSeqGo,
        isPrefixOf_cons_of_ne s₀ c sep' (a' ++ (s₀ :: sep') ++ b) hne, if_neg]
      have hlen' : (a' ++ (s₀ :: sep') ++ b).length ≤ n := by
        simp only [List.length_cons] at hlen
        simpa using hlen
      rw [ih n b ha' hlen']
      simp

theorem splitSeq_append_sep (s₀ : Char) (sep' a b : List Char) (h : s₀ ∉ a) :
    splitSeq (s₀ :: sep') (a ++ (s₀ :: sep') ++ b) = a :: splitSeq (s₀ :: sep') b :=
  splitSeqGo_append_sep s₀ sep' a _ b h (Nat.le_refl _)

theorem splitSeq_joinWith (c : Char) :
    ∀ (L : List (List Char)), L ≠ [] → (∀ l ∈ L, c ∉ l) →
      splitSeq [c] (joinWith [c] L) = L := by
  intro L
  induction L with
  | nil => intro h _; exact absurd rfl h
  | cons a rest ih =>
    intro _ hmem
    cases rest with
    | nil =>
      simp only [joinWith]
      exact splitSeq_no_sep c [] a (hmem a (List.mem_cons_self a []))
    | cons b rest' =>
      have hj : joinWith [c] (a :: b :: rest') = a ++ [c] ++ joinWith [c] (b :: rest') := rfl
      rw [hj, splitSeq_append_sep c [] a _ (hmem a (List.mem_cons_self a _)),
        ih (by simp) (fun l hl => hmem l (List.mem_cons_of_mem a hl))]

theorem containsSeq_append_sep (sep : List Char) (hsep : sep ≠ []) :
    ∀ (a b : List Char), containsSeq sep (a ++ sep ++ b) = true := by
  intro a
  induction a with
  | nil =>
    intro b
    cases sep with
    | nil => exact absurd rfl hsep
    | cons q qs =>
      simp only [List.nil_append, List.cons_append, containsSeq]
      have := isPrefixOf_append (q :: qs) b
      simp only [List.cons_append] at this
      simp [this]
  | cons x a' ih =>
    intro b
    have h1 : (x :: a') ++ sep ++ b = x :: (a' ++ sep ++ b) := by simp
    rw [h1]
    simp only [containsSeq]
    rw [ih b]
    simp

/-! ### Trim and join lemmas -/

theorem jsTrim_nil : jsTrim [] = [] := rfl

theorem jsTrim_eq_self (l : List Char)
    (hh : ∀ x, l.head? = some x → x.isWhitespace = false)
    (hl : ∀ x, l.getLast? = some x → x.isWhitespace = false) : jsTrim l = l := by
  cases l with
  | nil => rfl
  | cons c t =>
    have hc : c.isWhitespace = false := hh c rfl
    unfold jsTrim
    rw [List.dropWhile_cons, hc]
    simp only [Bool.false_eq_true, if_false]
    have hrev : (c :: t).reverse.head? = (c :: t).getLast? := List.head?_reverse (c :: t)
    have : (c :: t).reverse.dropWhile Char.isWhitespace = (c :: t).reverse := by
      cases hr : (c :: t).reverse with
      | nil => rfl
      | cons y ys =>
        have hy : (c :: t).getLast? = some y := by rw [← hrev, hr]; rfl
        rw [List.dropWhile_cons, hl y hy]
        simp
    rw [this, List.reverse_reverse]

theorem jsTrim_eq_nil (l : List Char) (h : ∀ x ∈ l, x.isWhitespace = true) :
    jsTrim l = [] := by
  unfold jsTrim
  have h1 : l.dropWhile Char.isWhitespace = [] := List.dropWhile_eq_nil_iff.mpr h
  rw [h1]
  rfl

theorem jsTrim_ne_nil_of_mem (l : List Char) (x : Char) (hx : x ∈ l)
    (hw : x.isWhitespace = false) : jsTrim l ≠ [] := by
  intro h
  unfold jsTrim at h
  have h2 : (l.dropWhile Char.isWhitespace).reverse.dropWhile Char.isWhitespace = [] := by
    have := congrArg List.reverse h
    simpa using this
  have h3 : ∀ y ∈ (l.dropWhile Char.isWhitespace).reverse, y.isWhitespace = true :=
    List.dropWhile_eq_nil_iff.mp h2
  have h4 : ∀ y ∈ l.dropWhile Char.isWhitespace, y.isWhitespace = true := by
    intro y hy
    exact h3 y (List.mem_reverse.mpr hy)
  -- x is in l but every char of the dropWhile-remainder is whitespace,
  -- and every dropped char is whitespace: so x is whitespace, contradiction
  have h5 : ∀ y ∈ l, y.isWhitespace = true := by
    intro y hy
    have hsplit2 : l.takeWhile Char.isWhitespace ++ l.dropWhile Char.isWhitespace = l :=
      List.takeWhile_append_dropWhile Char.isWhitespace l
    rcases List.mem_append.mp (hsplit2 ▸ hy) with h6 | h6
    · exact List.mem_takeWhile_imp h6
    · exact h4 y h6
  rw [h5 x hx] at hw
  exact Bool.true_eq_false.mp hw

theorem joinWith_head? {α : Type} (sep : List α) (a : List α) (rest : List (List α))
    (ha : a ≠ []) : (joinWith sep (a :: rest)).head? = a.head? := by
  cases rest with
  | nil => rfl
  | cons b r =>
    show ((a ++ sep) ++ joinWith sep (b :: r)).head? = a.head?
    cases a with
    | nil => exact absurd rfl ha
    | cons c t => simp

theorem getLast?_append_right {α : Type} (l t : List α) (ht : t ≠ []) :
    (l ++ t).getLast? = t.getLast? := by
  rw [← List.head?_reverse, ← List.head?_reverse, List.reverse_append]
  cases hr : t.reverse with
  | nil => exact absurd (by simpa using congrArg List.reverse hr) ht
  | cons y ys => simp

theorem joinWith_ne_nil_getLast? {α : Type} (sep : List α) :
    ∀ (L : List (List α)) (x : List α), L.getLast? = some x → x ≠ [] →
      joinWith sep L ≠ [] ∧ (joinWith sep L).getLast? = x.getLast? := by
  intro L
  induction L with
  | nil => intro x hx; exact absurd hx (by simp)
  | cons a rest ih =>
    intro x hx hxne
    cases rest with
    | nil =>
      have : a = x := by simpa using hx
      subst this
      exact ⟨hxne, rfl⟩
    | cons b r =>
      have hx' : (b :: r).getLast? = some x := by
        rw [← hx]
        exact (List.getLast?_cons_cons).symm
      obtain ⟨hne, hlast⟩ := ih x hx' hxne
      constructor
      · show (a ++ sep) ++ joinWith sep (b :: r) ≠ []
        simp [hne]
      · show ((a ++ sep) ++ joinWith sep (b :: r)).getLast? = x.getLast?
        rw [getLast?_append_right _ _ hne, hlast]

theorem mem_joinWith {α : Type} (sep : List α) :
    ∀ (L : List (List α)) (c : α), c ∈ joinWith sep L → c ∈ sep ∨ ∃ l ∈ L, c ∈ l := by
  intro L
  induction L with
  | nil => intro c hc; simp [joinWith] at hc
  | cons a rest ih =>
    intro c hc
    cases rest with
    | nil =>
      exact Or.inr ⟨a, List.mem_cons_self a [], hc⟩
    | cons b r =>
      have hc' : c ∈ (a ++ sep) ++ joinWith sep (b :: r) := hc
      rcases List.mem_append.mp hc' with h | h
      · rcases List.mem_append.mp h with h2 | h2
        · exact Or.inr ⟨a, List.mem_cons_self a _, h2⟩
        · exact Or.inl h2
      · rcases ih c h with h2 | ⟨l, hl, hcl⟩
        · exact Or.inl h2
        · exact Or.inr ⟨l, List.mem_cons_of_mem a hl, hcl⟩

theorem length_le_joinWith (sep : List (List Char)) :
    ∀ L : List (List (List Char)), (∀ l ∈ L, l ≠ []) →
      L.length ≤ (joinWith sep L).length := by
  intro L
  induction L with
  | nil => intro _; simp [joinWith]
  | cons a rest ih =>
    intro hL
    cases rest with
    | nil =>
      have : a ≠ [] := hL a (List.mem_cons_self a [])
      have : 1 ≤ a.length := List.length_pos.mpr this
      simpa [joinWith] using this
    | cons b r =>
      have h1 : (b :: r).length ≤ (joinWith sep (b :: r)).length :=
        ih (fun l hl => hL l (List.mem_cons_of_mem a hl))
      have h2 : a ≠ [] := hL a (List.mem_cons_self a _)
      have h3 : 1 ≤ a.length := List.length_pos.mpr h2
      show (b :: r).length + 1 ≤ ((a ++ sep) ++ joinWith sep (b :: r)).length
      simp only [List.length_append]
      omega

/-! ### Decimal rendering and parseInt lemmas -/

/-- The character classes a decimal digit avoids (whitespace, sign marks,
separators), bundled for reuse. -/
def goodDigit (c : Char) : Prop :=
  c.isDigit = true ∧ c.isWhitespace = false ∧
  c ≠ '-' ∧ c ≠ '+' ∧ c ≠ ':' ∧ c ≠ ',' ∧ c ≠ '\n' ∧ c ≠ '\r' ∧ c ≠ ' ' ∧ c ≠ '>'

instance (c : Char) : Decidable (goodDigit c) := by unfold goodDigit; infer_instance

theorem goodDigit_digitChar (d : Nat) : goodDigit (digitChar d) := by
  rcases d with _ | _ | _ | _ | _ | _ | _ | _ | _ | d
  case succ.succ.succ.succ.succ.succ.succ.succ.succ =>
    show goodDigit '9'
    decide
  all_goals decide

theorem digitChar_toNat (d : Nat) (h : d < 10) : (digitChar d).toNat = 48 + d := by
  interval_cases d <;> decide

theorem natDigitsGo_goodDigit :
    ∀ (fuel n : Nat) (c : Char), c ∈ natDigitsGo fuel n → goodDigit c := by
  intro fuel
  induction fuel with
  | zero => intro n c hc; simp [natDigitsGo] at hc
  | succ f ih =>
    intro n c hc
    by_cases hn : n = 0
    · simp [natDigitsGo, hn] at hc
    · simp only [natDigitsGo, hn, if_false] at hc
      rcases List.mem_append.mp hc with h | h
      · exact ih (n / 10) c h
      · have : c = digitChar (n % 10) := by simpa using h
        exact this ▸ goodDigit_digitChar (n % 10)

theorem natRepr_goodDigit (n : Nat) (c : Char) (hc : c ∈ natRepr n) : goodDigit c := by
  unfold natRepr at hc
  by_cases hn : n = 0
  · simp only [hn, if_true] at hc
    have : c = '0' := by simpa using hc
    subst this
    decide
  · simp only [hn, if_false] at hc
    exact natDigitsGo_goodDigit n n c hc

theorem natRepr_ne_nil (n : Nat) : natRepr n ≠ [] := by
  unfold natRepr
  by_cases hn : n = 0
  · simp [hn]
  · simp only [hn, if_false]
    rcases n with _ | m
    · exact absurd rfl hn
    · simp [natDigitsGo]

theorem natDigitsGo_foldl :
    ∀ (fuel n a : Nat), n ≤ fuel →
      (natDigitsGo fuel n).foldl (fun a c => a * 10 + (c.toNat - 48)) a =
        a * 10 ^ (natDigitsGo fuel n).length + n := by
  intro fuel
  induction fuel with
  | zero =>
    intro n a h
    have : n = 0 := Nat.le_zero.mp h
    subst this
    simp [natDigitsGo]
  | succ f ih =>
    intro n a h
    by_cases hn : n = 0
    · simp [natDigitsGo, hn]
    · have hdiv : n / 10 ≤ f := by
        have h1 : n / 10 < n := Nat.div_lt_self (Nat.pos_of_ne_zero hn) (by omega)
        omega
      simp only [natDigitsGo, hn, if_false, List.foldl_append, List.length_append,
        List.foldl_cons, List.foldl_nil, List.length_cons, List.length_nil]
      rw [ih (n / 10) a hdiv]
      rw [digitChar_toNat (n % 10) (Nat.mod_lt n (by omega))]
      have : 48 + n % 10 - 48 = n % 10 := by omega
      rw [this]
      rw [pow_succ]
      have hmod := Nat.div_add_mod n 10
      ring_nf
      omega

theorem natRepr_foldl (n : Nat) :
    (natRepr n).foldl (fun a c => a * 10 + (c.toNat - 48)) 0 = n := by
  unfold natRepr
  by_cases hn : n = 0
  · simp [hn]
  · simp only [hn, if_false]
    rw [natDigitsGo_foldl n n 0 (Nat.le_refl n)]
    simp

theorem digitsVal_all_digits (l : List Char) (hne : l ≠ [])
    (hd : ∀ c ∈ l, c.isDigit = true) :
    digitsVal l = some (l.foldl (fun a c => a * 10 + (c.toNat - 48)) 0) := by
  unfold digitsVal
  have ht : l.takeWhile Char.isDigit = l := List.takeWhile_eq_self_iff.mpr hd
  rw [ht]
  simp [hne]

theorem jsParseInt_all_digits (l : List Char) (hne : l ≠ []) (hd : ∀ c ∈ l, goodDigit c) :
    jsParseInt l = some ((l.foldl (fun a c => a * 10 + (c.toNat - 48)) 0 : Nat) : Int) := by
  unfold jsParseInt
  have hdrop : l.dropWhile Char.isWhitespace = l := by
    rw [List.dropWhile_eq_self_iff]
    intro hdw
    cases l with
    | nil => exact absurd rfl hne
    | cons c t =>
      intro hmm
      exact absurd ((hd c (List.mem_cons_self c t)).2.1 ▸ hmm) (by simp)
  rw [hdrop]
  have hhead : l.head? ≠ some '-' ∧ l.head? ≠ some '+' := by
    cases l with
    | nil => simp
    | cons c t =>
      have := hd c (List.mem_cons_self c t)
      refine ⟨fun h => ?_, fun h => ?_⟩
      · exact this.2.2.1 (by simpa using h)
      · exact this.2.2.2.1 (by simpa using h)
  rw [if_neg hhead.1, if_neg hhead.2]
  rw [digitsVal_all_digits l hne (fun c hc => (hd c hc).1)]
  rfl

/-! ### Well-formed cues and their rendering (the spec's input format §6) -/

/-- Two-digit zero-padded rendering (`HH`, `MM`, `SS`). -/
def pad2 (n : Nat) : List Char := if n < 10 then '0' :: natRepr n else natRepr n

/-- Three-digit zero-padded rendering (`mmm`). -/
def pad3 (n : Nat) : List Char :=
  if n < 10 then '0' :: '0' :: natRepr n
  else if n < 100 then '0' :: natRepr n
  else natRepr n

/-- `HH:MM:SS,mmm`. -/
def renderTs (h m s ms : Nat) : List Char :=
  pad2 h ++ [':'] ++ (pad2 m ++ [':'] ++ (pad2 s ++ [','] ++ pad3 ms))

/-- The arithmetic value `H*3600 + M*60 + S + ms/1000` of a timestamp. -/
def tsVal (h m s ms : Nat) : ℚ := (h : ℚ) * 3600 + (m : ℚ) * 60 + (s : ℚ) + (ms : ℚ) / 1000

/-- A well-formed cue: an integer index, the eight timestamp fields, and its
text lines. -/
structure Cue where
  idx : Nat
  h1 : Nat
  m1 : Nat
  s1 : Nat
  ms1 : Nat
  h2 : Nat
  m2 : Nat
  s2 : Nat
  ms2 : Nat
  text : List (List Char)
deriving DecidableEq

def timingLineOf (c : Cue) : List Char :=
  renderTs c.h1 c.m1 c.s1 c.ms1 ++ str " --> " ++ renderTs c.h2 c.m2 c.s2 c.ms2

/-- The lines a cue contributes to the file: index line, timing line, text. -/
def renderCue (c : Cue) : List (List Char) := natRepr c.idx :: timingLineOf c :: c.text

/-- All lines of a file of cues, a blank separator line between cues (a blank
line after the final cue would be removed by the parser's initial trim). -/
def fileLines (cues : List Cue) : List (List Char) := joinWith [[]] (cues.map renderCue)

/-- The file text: lines joined by newlines. -/
def renderFile (cues : List Cue) : List Char := joinWith ['\n'] (fileLines cues)

/-- The entry the parser should produce for a well-formed cue. -/
def cueSubtitle (c : Cue) : Subtitle :=
  ⟨(c.idx : Int), some (tsVal c.h1 c.m1 c.s1 c.ms1), some (tsVal c.h2 c.m2 c.s2 c.ms2),
    joinWith ['\n'] c.text⟩

/-- A usable cue text line: non-blank, and free of the line-ending characters
(which could not occur inside one line of a file). -/
def goodLine (l : List Char) : Prop := jsTrim l ≠ [] ∧ '\n' ∉ l ∧ '\r' ∉ l

/-- A well-formed cue per the spec: at least one text line, all of them
non-blank lines. -/
def goodCue (c : Cue) : Prop := c.text ≠ [] ∧ ∀ l ∈ c.text, goodLine l

instance (l : List Char) : Decidable (goodLine l) := by unfold goodLine; infer_instance

instance (c : Cue) : Decidable (goodCue c) := by unfold goodCue; infer_instance

theorem pad2_goodDigit (n : Nat) (c : Char) (hc : c ∈ pad2 n) : goodDigit c := by
  unfold pad2 at hc
  split at hc
  · rcases List.mem_cons.mp hc with h | h
    · subst h; decide
    · exact natRepr_goodDigit n c h
  · exact natRepr_goodDigit n c hc

theorem pad3_goodDigit (n : Nat) (c : Char) (hc : c ∈ pad3 n) : goodDigit c := by
  unfold pad3 at hc
  split at hc
  · rcases List.mem_cons.mp hc with h | h
    · subst h; decide
    · rcases List.mem_cons.mp h with h2 | h2
      · subst h2; decide
      · exact natRepr_goodDigit n c h2
  · split at hc
    · rcases List.mem_cons.mp hc with h | h
      · subst h; decide
      · exact natRepr_goodDigit n c h
    · exact natRepr_goodDigit n c hc

theorem pad2_ne_nil (n : Nat) : pad2 n ≠ [] := by
  unfold pad2
  split
  · simp
  · exact natRepr_ne_nil n

theorem pad3_ne_nil (n : Nat) : pad3 n ≠ [] := by
  unfold pad3
  split
  · simp
  · split
    · simp
    · exact natRepr_ne_nil n

theorem pad2_foldl (n : Nat) :
    (pad2 n).foldl (fun a c => a * 10 + (c.toNat - 48)) 0 = n := by
  unfold pad2
  split
  · rw [List.foldl_cons]
    have : (0 * 10 + ('0'.toNat - 48)) = 0 := by decide
    rw [this, natRepr_foldl]
  · exact natRepr_foldl n

theorem pad3_foldl (n : Nat) :
    (pad3 n).foldl (fun a c => a * 10 + (c.toNat - 48)) 0 = n := by
  unfold pad3
  have h0 : (0 * 10 + ('0'.toNat - 48)) = 0 := by decide
  split
  · rw [List.foldl_cons, h0, List.foldl_cons, h0, natRepr_foldl]
  · split
    · rw [List.foldl_cons, h0, natRepr_foldl]
    · exact natRepr_foldl n

theorem jsParseInt_pad2 (n : Nat) : jsParseInt (pad2 n) = some ((n : Nat) : Int) := by
  rw [jsParseInt_all_digits (pad2 n) (pad2_ne_nil n) (pad2_goodDigit n), pad2_foldl]

theorem jsParseInt_pad3 (n : Nat) : jsParseInt (pad3 n) = some ((n : Nat) : Int) := by
  rw [jsParseInt_all_digits (pad3 n) (pad3_ne_nil n) (pad3_goodDigit n), pad3_foldl]

theorem jsParseInt_natRepr (n : Nat) : jsParseInt (natRepr n) = some ((n : Nat) : Int) := by
  rw [jsParseInt_all_digits (natRepr n) (natRepr_ne_nil n) (natRepr_goodDigit n),
    natRepr_foldl]

theorem splitSeq_renderTs_colon (h m s ms : Nat) :
    splitSeq [':'] (renderTs h m s ms) = [pad2 h, pad2 m, pad2 s ++ [','] ++ pad3 ms] := by
  have h1 : (':' : Char) ∉ pad2 h := fun hc => (pad2_goodDigit h ':' hc).2.2.2.2.1 rfl
  have h2 : (':' : Char) ∉ pad2 m := fun hc => (pad2_goodDigit m ':' hc).2.2.2.2.1 rfl
  have h3 : (':' : Char) ∉ pad2 s ++ [','] ++ pad3 ms := by
    intro hc
    rcases List.mem_append.mp hc with hc2 | hc2
    · rcases List.mem_append.mp hc2 with hc3 | hc3
      · exact (pad2_goodDigit s ':' hc3).2.2.2.2.1 rfl
      · simp at hc3
    · exact (pad3_goodDigit ms ':' hc2).2.2.2.2.1 rfl
  unfold renderTs
  rw [splitSeq_append_sep ':' [] (pad2 h) _ h1,
    splitSeq_append_sep ':' [] (pad2 m) _ h2,
    splitSeq_no_sep ':' [] _ h3]

theorem splitSeq_third_comma (s ms : Nat) :
    splitSeq [','] (pad2 s ++ [','] ++ pad3 ms) = [pad2 s, pad3 ms] := by
  have h1 : (',' : Char) ∉ pad2 s := fun hc => (pad2_goodDigit s ',' hc).2.2.2.2.2.1 rfl
  have h2 : (',' : Char) ∉ pad3 ms := fun hc => (pad3_goodDigit ms ',' hc).2.2.2.2.2.1 rfl
  rw [splitSeq_append_sep ',' [] (pad2 s) _ h1, splitSeq_no_sep ',' [] _ h2]

theorem parseTimestamp_renderTs (h m s ms : Nat) :
    parseTimestamp (renderTs h m s ms) = .ok (some (tsVal h m s ms)) := by
  unfold parseTimestamp
  rw [splitSeq_renderTs_colon]
  simp only [splitSeq_third_comma, List.headD_cons, jsParseInt_pad2, List.get?_cons_succ,
    List.get?_cons_zero, Option.some_bind, jsParseInt_pad3]
  unfold tsVal
  push_cast
  norm_num

/-! ### Parser loop lemmas -/

theorem takeWhile_app {α : Type} (p : α → Bool) (a t : List α) (h : ∀ x ∈ a, p x = true) :
    (a ++ t).takeWhile p = a ++ t.takeWhile p := by
  induction a with
  | nil => simp
  | cons x a' ih =>
    have hx : p x = true := h x (List.mem_cons_self x a')
    simp only [List.cons_append, List.takeWhile_cons, hx, if_true]
    rw [ih (fun y hy => h y (List.mem_cons_of_mem x hy))]

theorem dropWhile_app {α : Type} (p : α → Bool) (a t : List α) (h : ∀ x ∈ a, p x = true) :
    (a ++ t).dropWhile p = t.dropWhile p := by
  induction a with
  | nil => simp
  | cons x a' ih =>
    have hx : p x = true := h x (List.mem_cons_self x a')
    simp only [List.cons_append, List.dropWhile_cons, hx, if_true]
    exact ih (fun y hy => h y (List.mem_cons_of_mem x hy))

theorem head?_append_left {α : Type} (l t : List α) (h : l ≠ []) :
    (l ++ t).head? = l.head? := by
  cases l with
  | nil => exact absurd rfl h
  | cons c r => simp

theorem parseLinesGo_skip1 (fuel : Nat) (line : List Char) (rest : List (List Char))
    (h : jsParseInt line = none) :
    parseLinesGo (fuel + 1) (line :: rest) = parseLinesGo fuel rest := by
  simp [parseLinesGo, h]

theorem parseLinesGo_skip2 (fuel : Nat) (line timeLine : List Char)
    (rest2 : List (List Char)) (idv : Int)
    (h : jsParseInt line = some idv)
    (ht : timeLine = [] ∨ containsSeq (str "-->") timeLine = false) :
    parseLinesGo (fuel + 1) (line :: timeLine :: rest2) = parseLinesGo fuel rest2 := by
  simp only [parseLinesGo, h]
  rw [if_pos ht]

theorem parseLinesGo_cueStep (fuel : Nat) (line timeLine : List Char)
    (rest2 : List (List Char)) (idv : Int) (startStr endStr : List Char)
    (tl : List (List Char)) (stv env : Option ℚ)
    (hid : jsParseInt line = some idv)
    (hne : timeLine ≠ [])
    (hct : containsSeq (str "-->") timeLine = true)
    (hsplit : splitSeq (str " --> ") timeLine = startStr :: endStr :: tl)
    (hst : parseTimestamp (jsTrim startStr) = .ok stv)
    (hen : parseTimestamp (jsTrim endStr) = .ok env) :
    parseLinesGo (fuel + 1) (line :: timeLine :: rest2) =
      match parseLinesGo fuel ((rest2.dropWhile (fun l => !(jsTrim l).isEmpty)).drop 1) with
      | .ok subs => .ok (⟨idv, stv, env,
          joinWith ['\n'] (rest2.takeWhile (fun l => !(jsTrim l).isEmpty))⟩ :: subs)
      | .error e => .error e := by
  simp only [parseLinesGo, hid]
  rw [if_neg (by simp [hne, hct])]
  rw [hsplit]
  simp only [hst, hen]

theorem renderTs_chars (h m s ms : Nat) (ch : Char) (hc : ch ∈ renderTs h m s ms) :
    goodDigit ch ∨ ch = ':' ∨ ch = ',' := by
  unfold renderTs at hc
  rcases List.mem_append.mp hc with h1 | h1
  · rcases List.mem_append.mp h1 with h2 | h2
    · exact Or.inl (pad2_goodDigit h ch h2)
    · right; left; simpa using h2
  · rcases List.mem_append.mp h1 with h2 | h2
    · rcases List.mem_append.mp h2 with h3 | h3
      · exact Or.inl (pad2_goodDigit m ch h3)
      · right; left; simpa using h3
    · rcases List.mem_append.mp h2 with h3 | h3
      · rcases List.mem_append.mp h3 with h4 | h4
        · exact Or.inl (pad2_goodDigit s ch h4)
        · right; right; simpa using h4
      · exact Or.inl (pad3_goodDigit ms ch h3)

theorem renderTs_no_space (h m s ms : Nat) : (' ' : Char) ∉ renderTs h m s ms := by
  intro hc
  rcases renderTs_chars h m s ms ' ' hc with hg | hg | hg
  · exact hg.2.2.2.2.2.2.2.2.1 rfl
  · simp at hg
  · simp at hg

theorem renderTs_ne_nil (h m s ms : Nat) : renderTs h m s ms ≠ [] := by
  unfold renderTs
  simp [pad2_ne_nil]

theorem renderTs_no_ws (h m s ms : Nat) (ch : Char) (hc : ch ∈ renderTs h m s ms) :
    ch.isWhitespace = false := by
  rcases renderTs_chars h m s ms ch hc with hg | hg | hg
  · exact hg.2.1
  · subst hg; decide
  · subst hg; decide

theorem renderTs_no_nl (h m s ms : Nat) (ch : Char) (hc : ch ∈ renderTs h m s ms) :
    ch ≠ '\n' ∧ ch ≠ '\r' := by
  rcases renderTs_chars h m s ms ch hc with hg | hg | hg
  · exact ⟨hg.2.2.2.2.2.2.1, hg.2.2.2.2.2.2.2.1⟩
  · subst hg; exact ⟨by decide, by decide⟩
  · subst hg; exact ⟨by decide, by decide⟩

theorem jsTrim_renderTs (h m s ms : Nat) : jsTrim (renderTs h m s ms) = renderTs h m s ms := by
  apply jsTrim_eq_self
  · intro x hx
    exact renderTs_no_ws h m s ms x (List.mem_of_mem_head? hx)
  · intro x hx
    exact renderTs_no_ws h m s ms x (List.mem_of_mem_getLast? hx)

theorem timingLineOf_split (c : Cue) :
    splitSeq (str " --> ") (timingLineOf c) =
      [renderTs c.h1 c.m1 c.s1 c.ms1, renderTs c.h2 c.m2 c.s2 c.ms2] := by
  have hstr : str " --> " = ' ' :: str "--> " := rfl
  unfold timingLineOf
  rw [hstr, splitSeq_append_sep ' ' (str "--> ") _ _ (renderTs_no_space _ _ _ _),
    splitSeq_no_sep ' ' (str "--> ") _ (renderTs_no_space _ _ _ _)]

theorem timingLineOf_contains (c : Cue) :
    containsSeq (str "-->") (timingLineOf c) = true := by
  have he : timingLineOf c =
      ((renderTs c.h1 c.m1 c.s1 c.ms1 ++ [' ']) ++ str "-->") ++
        (' ' :: renderTs c.h2 c.m2 c.s2 c.ms2) := by
    unfold timingLineOf
    simp [str, List.append_assoc]
  rw [he]
  exact containsSeq_append_sep (str "-->") (by decide)
    (renderTs c.h1 c.m1 c.s1 c.ms1 ++ [' ']) (' ' :: renderTs c.h2 c.m2 c.s2 c.ms2)

theorem timingLineOf_ne_nil (c : Cue) : timingLineOf c ≠ [] := by
  unfold timingLineOf
  simp [renderTs_ne_nil]

theorem timingLineOf_chars (c : Cue) (ch : Char) (hc : ch ∈ timingLineOf c) :
    ch ≠ '\n' ∧ ch ≠ '\r' := by
  unfold timingLineOf at hc
  rcases List.mem_append.mp hc with h1 | h1
  · rcases List.mem_append.mp h1 with h2 | h2
    · exact renderTs_no_nl _ _ _ _ ch h2
    · have h3 : ch ∈ [' ', '-', '-', '>', ' '] := h2
      simp only [List.mem_cons, List.not_mem_nil, or_false] at h3
      rcases h3 with h | h | h | h | h <;> subst h <;> exact ⟨by decide, by decide⟩
  · exact renderTs_no_nl _ _ _ _ ch h1

theorem parseLinesGo_renderCue (fuel : Nat) (c : Cue) (tail : List (List Char))
    (hc : goodCue c) (htail : tail = [] ∨ ∃ more, tail = [] :: more) :
    parseLinesGo (fuel + 1) (renderCue c ++ tail) =
      match parseLinesGo fuel (tail.drop 1) with
      | .ok subs => .ok (cueSubtitle c :: subs)
      | .error e => .error e := by
  have hshape : renderCue c ++ tail = natRepr c.idx :: timingLineOf c :: (c.text ++ tail) := by
    simp [renderCue]
  rw [hshape]
  have hptext : ∀ l ∈ c.text, (fun l => !(jsTrim l).isEmpty) l = true := by
    intro l hl
    have := (hc.2 l hl).1
    simp [this]
  have htake : (c.text ++ tail).takeWhile (fun l => !(jsTrim l).isEmpty) = c.text := by
    rw [takeWhile_app _ _ _ hptext]
    rcases htail with h | ⟨more, h⟩
    · simp [h]
    · subst h
      simp [List.takeWhile_cons, jsTrim_nil]
  have hdrop : ((c.text ++ tail).dropWhile (fun l => !(jsTrim l).isEmpty)).drop 1 =
      tail.drop 1 := by
    rw [dropWhile_app _ _ _ hptext]
    rcases htail with h | ⟨more, h⟩
    · simp [h]
    · subst h
      simp [List.dropWhile_cons, jsTrim_nil]
  rw [parseLinesGo_cueStep fuel (natRepr c.idx) (timingLineOf c) (c.text ++ tail)
    (c.idx : Int) (renderTs c.h1 c.m1 c.s1 c.ms1) (renderTs c.h2 c.m2 c.s2 c.ms2) []
    (some (tsVal c.h1 c.m1 c.s1 c.ms1)) (some (tsVal c.h2 c.m2 c.s2 c.ms2))
    (jsParseInt_natRepr c.idx) (timingLineOf_ne_nil c) (timingLineOf_contains c)
    (timingLineOf_split c)
    (by rw [jsTrim_renderTs]; exact parseTimestamp_renderTs _ _ _ _)
    (by rw [jsTrim_renderTs]; exact parseTimestamp_renderTs _ _ _ _)]
  rw [htake, hdrop]
  rfl

theorem parseLinesGo_fileLines :
    ∀ (cues : List Cue) (fuel : Nat), (∀ c ∈ cues, goodCue c) → cues.length ≤ fuel →
      parseLinesGo fuel (fileLines cues) = .ok (cues.map cueSubtitle) := by
  intro cues
  induction cues with
  | nil =>
    intro fuel _ _
    cases fuel <;> rfl
  | cons c cues' ih =>
    intro fuel hwf hlen
    cases fuel with
    | zero => simp at hlen
    | succ f =>
      have hc : goodCue c := hwf c (List.mem_cons_self c cues')
      have hwf' : ∀ x ∈ cues', goodCue x := fun x hx => hwf x (List.mem_cons_of_mem c hx)
      have hlen' : cues'.length ≤ f := by
        simp only [List.length_cons] at hlen
        omega
      cases cues' with
      | nil =>
        have hshape : fileLines [c] = renderCue c ++ [] := by
          simp [fileLines, joinWith]
        rw [hshape, parseLinesGo_renderCue f c [] hc (Or.inl rfl)]
        have : parseLinesGo f ([] : List (List Char)) = .ok [] := by cases f <;> rfl
        simp only [List.drop_nil, this]
        rfl
      | cons c2 r =>
        have hshape : fileLines (c :: c2 :: r) = renderCue c ++ ([] :: fileLines (c2 :: r)) := by
          show joinWith [[]] (renderCue c :: renderCue c2 :: (c2 :: r).tail.map renderCue) = _
          simp only [joinWith, fileLines, List.map_cons, List.tail_cons]
          simp [List.append_assoc]
        rw [hshape, parseLinesGo_renderCue f c ([] :: fileLines (c2 :: r)) hc
          (Or.inr ⟨fileLines (c2 :: r), rfl⟩)]
        simp only [List.drop_succ_cons, List.drop_zero]
        rw [ih f hwf' hlen']
        rfl

theorem renderCue_ne_nil (c : Cue) : renderCue c ≠ [] := by simp [renderCue]

theorem renderCue_clean (c : Cue) (hc : goodCue c) :
    ∀ l ∈ renderCue c, ('\n' : Char) ∉ l ∧ ('\r' : Char) ∉ l := by
  intro l hl
  rcases List.mem_cons.mp hl with h | h
  · subst h
    constructor
    · intro hm; exact (natRepr_goodDigit c.idx '\n' hm).2.2.2.2.2.2.1 rfl
    · intro hm; exact (natRepr_goodDigit c.idx '\r' hm).2.2.2.2.2.2.2.1 rfl
  · rcases List.mem_cons.mp h with h2 | h2
    · subst h2
      constructor
      · intro hm; exact (timingLineOf_chars c '\n' hm).1 rfl
      · intro hm; exact (timingLineOf_chars c '\r' hm).2 rfl
    · exact ⟨fun hm => absurd hm (fun hmm => ((hc.2 l h2).2.1 hmm)),
        fun hm => absurd hm (fun hmm => ((hc.2 l h2).2.2 hmm))⟩

theorem fileLines_cons_head (c0 : Cue) (cues' : List Cue) :
    ∃ restL, fileLines (c0 :: cues') = natRepr c0.idx :: restL := by
  cases cues' with
  | nil => exact ⟨timingLineOf c0 :: c0.text, rfl⟩
  | cons c2 r =>
    refine ⟨(timingLineOf c0 :: c0.text) ++ ([] :: fileLines (c2 :: r)), ?_⟩
    show joinWith [[]] (renderCue c0 :: renderCue c2 :: r.map renderCue) = _
    show (natRepr c0.idx :: timingLineOf c0 :: c0.text) ++ [[]] ++ _ = _
    simp [fileLines, List.append_assoc]

theorem fileLines_getLast (cues : List Cue) (clast : Cue)
    (hcl : cues.getLast? = some clast) (hne : clast.text ≠ []) :
    fileLines cues ≠ [] ∧ (fileLines cues).getLast? = clast.text.getLast? := by
  have hmap : (cues.map renderCue).getLast? = some (renderCue clast) := by
    rw [List.getLast?_map, hcl]
    rfl
  have hrc : (renderCue clast).getLast? = clast.text.getLast? := by
    show (natRepr clast.idx :: timingLineOf clast :: clast.text).getLast? = _
    cases ht : clast.text with
    | nil => exact absurd ht hne
    | cons a r => rw [List.getLast?_cons_cons, List.getLast?_cons_cons]
  obtain ⟨h1, h2⟩ := joinWith_ne_nil_getLast? [[]] (cues.map renderCue) (renderCue clast)
    hmap (renderCue_ne_nil clast)
  exact ⟨h1, by rw [show fileLines cues = joinWith [[]] (cues.map renderCue) from rfl, h2, hrc]⟩

/-- `parseSrt` on the rendering of well-formed cues, provided the very last
text line does not end in whitespace (the parser's initial trim would strip
such characters, see the C5 counterexample). -/
theorem parseSrt_renderFile (cues : List Cue) (hwf : ∀ c ∈ cues, goodCue c)
    (hlast : ∀ cl ∈ cues.getLast?, ∀ tl ∈ cl.text.getLast?, ∀ ch ∈ tl.getLast?,
      ch.isWhitespace = false) :
    parseSrt (renderFile cues) = .ok (cues.map cueSubtitle) := by
  cases cues with
  | nil => rfl
  | cons c0 cues' =>
    set cs := c0 :: cues' with hcs
    -- the last cue and its last text line
    obtain ⟨clast, hclast⟩ : ∃ x, cs.getLast? = some x :=
      Option.isSome_iff_exists.mp (by simp [hcs])
    have hclast_mem : clast ∈ cs := List.mem_of_mem_getLast? hclast
    have hgood_last : goodCue clast := hwf clast hclast_mem
    obtain ⟨lt, hlt⟩ : ∃ x, clast.text.getLast? = some x :=
      Option.isSome_iff_exists.mp (by
        cases ht : clast.text with
        | nil => exact absurd ht hgood_last.1
        | cons a r => simp)
    have hlt_good : goodLine lt := hgood_last.2 lt (List.mem_of_mem_getLast? hlt)
    have hlt_ne : lt ≠ [] := by
      intro h
      exact hlt_good.1 (by rw [h]; rfl)
    -- every line of the file is free of newline and carriage return
    have hline_clean : ∀ l ∈ fileLines cs, ('\n' : Char) ∉ l ∧ ('\r' : Char) ∉ l := by
      intro l hl
      rcases mem_joinWith [[]] (cs.map renderCue) l hl with h | ⟨g, hg, hlg⟩
      · have : l = [] := by simpa using h
        subst this
        simp
      · obtain ⟨c, hc, rfl⟩ := List.mem_map.mp hg
        exact renderCue_clean c (hwf c hc) l hlg
    -- the line list is non-empty and ends with the last text line
    obtain ⟨hfl_ne, hfl_last⟩ := fileLines_getLast cs clast hclast hgood_last.1
    -- flat file text
    have hflat_last : (renderFile cs).getLast? = lt.getLast? := by
      have := joinWith_ne_nil_getLast? ['\n'] (fileLines cs) lt (by rw [hfl_last, hlt]) hlt_ne
      exact this.2
    obtain ⟨restL, hhead_shape⟩ := fileLines_cons_head c0 cues'
    have hflat_head : (renderFile cs).head? = (natRepr c0.idx).head? := by
      show (joinWith ['\n'] (fileLines cs)).head? = _
      rw [hhead_shape]
      exact joinWith_head? ['\n'] (natRepr c0.idx) restL (natRepr_ne_nil c0.idx)
    -- trim is the identity on the flat text
    have htrim : jsTrim (renderFile cs) = renderFile cs := by
      apply jsTrim_eq_self
      · intro x hx
        rw [hflat_head] at hx
        exact (natRepr_goodDigit c0.idx x (List.mem_of_mem_head? hx)).2.1
      · intro x hx
        rw [hflat_last] at hx
        exact hlast clast hclast lt hlt x hx
    -- stripping carriage returns is the identity
    have hfilter : (renderFile cs).filter (fun c => c ≠ '\r') = renderFile cs := by
      rw [List.filter_eq_self]
      intro a ha
      rcases mem_joinWith ['\n'] (fileLines cs) a ha with h | ⟨g, hg, hag⟩
      · have : a = '\n' := by simpa using h
        subst this
        decide
      · have := (hline_clean g hg).2
        simp only [decide_eq_true_eq]
        intro hh
        exact this (hh ▸ hag)
    -- splitting on newlines recovers the lines
    have hsplit : splitSeq ['\n'] (renderFile cs) = fileLines cs :=
      splitSeq_joinWith '\n' (fileLines cs) hfl_ne (fun l hl => (hline_clean l hl).1)
    -- enough fuel
    have hfuel : cs.length ≤ (fileLines cs).length := by
      have h1 : (cs.map renderCue).length ≤ (fileLines cs).length :=
        length_le_joinWith [[]] (cs.map renderCue)
          (fun l hl => by
            obtain ⟨c, _, rfl⟩ := List.mem_map.mp hl
            exact renderCue_ne_nil c)
      simpa using h1
    show parseLinesGo (splitSeq ['\n'] ((jsTrim (renderFile cs)).filter (fun c => c ≠ '\r'))).length
        (splitSeq ['\n'] ((jsTrim (renderFile cs)).filter (fun c => c ≠ '\r'))) = _
    rw [htrim, hfilter, hsplit]
    exact parseLinesGo_fileLines cs (fileLines cs).length hwf hfuel

deriving instance DecidableEq for Except

def c7cue1 : Cue := ⟨1, 0, 0, 0, 0, 0, 0, 2, 0, [str "Hello"]⟩

def c7cue3 : Cue := ⟨3, 0, 0, 5, 0, 0, 0, 6, 0, [str "World"]⟩

/-- C7: a file consisting of one well-formed cue, then one malformed cue whose
timing line is missing the `-->` separator, then another well-formed cue,
parses to exactly the two well-formed entries in order, with none lost or
duplicated. -/
theorem c7_resync_after_malformed_cue :
    parseSrt (str "1\n00:00:00,000 --> 00:00:02,000\nHello\n\n2\n00:00:03,000 00:00:04,000\noops\n\n3\n00:00:05,000 --> 00:00:06,000\nWorld")
      = .ok [⟨1, some 0, some 2, str "Hello"⟩, ⟨3, some 5, some 6, str "World"⟩] := by
  have hlines : splitSeq ['\n']
      ((jsTrim (str "1\n00:00:00,000 --> 00:00:02,000\nHello\n\n2\n00:00:03,000 00:00:04,000\noops\n\n3\n00:00:05,000 --> 00:00:06,000\nWorld")).filter
        (fun c => c ≠ '\r'))
      = renderCue c7cue1 ++
          ([] :: (str "2" :: str "00:00:03,000 00:00:04,000" :: str "oops" :: [] ::
            (renderCue c7cue3 ++ []))) := by decide
  have hlen : (renderCue c7cue1 ++
      ([] :: (str "2" :: str "00:00:03,000 00:00:04,000" :: str "oops" :: [] ::
        (renderCue c7cue3 ++ [])))).length = 11 := by decide
  show parseLinesGo _ _ = _
  rw [hlines, hlen]
  rw [show (11 : Nat) = 10 + 1 from rfl,
    parseLinesGo_renderCue 10 c7cue1 _ (by decide) (Or.inr ⟨_, rfl⟩)]
  simp only [List.drop_succ_cons, List.drop_zero]
  rw [show (10 : Nat) = 9 + 1 from rfl,
    parseLinesGo_skip2 9 (str "2") (str "00:00:03,000 00:00:04,000") _ 2 (by decide)
      (Or.inr (by decide))]
  rw [show (9 : Nat) = 8 + 1 from rfl, parseLinesGo_skip1 8 (str "oops") _ (by decide)]
  rw [show (8 : Nat) = 7 + 1 from rfl, parseLinesGo_skip1 7 [] _ (by decide)]
  rw [show (7 : Nat) = 6 + 1 from rfl,
    parseLinesGo_renderCue 6 c7cue3 [] (by decide) (Or.inl rfl)]
  rw [show parseLinesGo 6 ([].drop 1) = .ok [] from rfl]
  show Except.ok [cueSubtitle c7cue1, cueSubtitle c7cue3] = _
  unfold cueSubtitle c7cue1 c7cue3
  simp only [joinWith]
  norm_num [tsVal]

/-- Parsing the five-line file `1 / timing / Hi / w / there`, where `w` is any
line whose trimmed content is empty: the cue's text stops before `w`, and the
line `there` is then skipped as a failed index line. -/
theorem parseSrt_wsDelimitedCue (w : List Char) (hw1 : jsTrim w = [])
    (hw2 : ('\n' : Char) ∉ w) (hw3 : ('\r' : Char) ∉ w) :
    parseSrt (joinWith ['\n']
        [str "1", str "00:00:00,000 --> 00:00:01,000", str "Hi", w, str "there"])
      = .ok [⟨1, some 0, some 1, str "Hi"⟩] := by
  set L : List (List Char) :=
    [str "1", str "00:00:00,000 --> 00:00:01,000", str "Hi", w, str "there"] with hL
  have hclean : ∀ l ∈ L, ('\n' : Char) ∉ l := by
    intro l hl
    rw [hL] at hl
    simp only [List.mem_cons, List.not_mem_nil, or_false] at hl
    rcases hl with h | h | h | h | h
    all_goals first
      | (subst h; decide)
      | (subst h; exact hw2)
  have hcr : ∀ l ∈ L, ∀ c ∈ l, c ≠ '\r' := by
    intro l hl
    rw [hL] at hl
    simp only [List.mem_cons, List.not_mem_nil, or_false] at hl
    rcases hl with h | h | h | h | h
    all_goals first
      | (subst h; decide)
      | (subst h; intro c hc he; exact hw3 (he ▸ hc))
  have htrim : jsTrim (joinWith ['\n'] L) = joinWith ['\n'] L := by
    apply jsTrim_eq_self
    · intro x hx
      have hh : (joinWith ['\n'] L).head? = (str "1").head? :=
        joinWith_head? ['\n'] (str "1") _ (by decide)
      rw [hh] at hx
      rw [show (str "1").head? = some '1' from rfl] at hx
      injection hx with hx
      subst hx
      decide
    · intro x hx
      have hh := joinWith_ne_nil_getLast? ['\n'] L (str "there") (by rw [hL]; rfl) (by decide)
      rw [hh.2] at hx
      rw [show (str "there").getLast? = some 'e' from rfl] at hx
      injection hx with hx
      subst hx
      decide
  have hfilter : (joinWith ['\n'] L).filter (fun c => c ≠ '\r') = joinWith ['\n'] L := by
    rw [List.filter_eq_self]
    intro a ha
    simp only [decide_eq_true_eq]
    rcases mem_joinWith ['\n'] L a ha with h | ⟨g, hg, hag⟩
    · have : a = '\n' := by simpa using h
      subst this
      decide
    · exact hcr g hg a hag
  have hsplit : splitSeq ['\n'] (joinWith ['\n'] L) = L :=
    splitSeq_joinWith '\n' L (by rw [hL]; simp) hclean
  show parseLinesGo _ _ = _
  rw [htrim, hfilter, hsplit]
  have hlen : L.length = 5 := by rw [hL]; rfl
  rw [hlen, hL]
  rw [show (5 : Nat) = 4 + 1 from rfl,
    parseLinesGo_cueStep 4 (str "1") (str "00:00:00,000 --> 00:00:01,000")
      [str "Hi", w, str "there"] 1 (renderTs 0 0 0 0) (renderTs 0 0 1 0) []
      (some (tsVal 0 0 0 0)) (some (tsVal 0 0 1 0))
      (by decide) (by decide) (by decide) (by decide)
      (by rw [jsTrim_renderTs]; exact parseTimestamp_renderTs 0 0 0 0)
      (by rw [jsTrim_renderTs]; exact parseTimestamp_renderTs 0 0 1 0)]
  have hpw : (!(jsTrim w).isEmpty) = false := by simp [hw1]
  have hpHi : (!(jsTrim (str "Hi")).isEmpty) = true := by decide
  have htake : [str "Hi", w, str "there"].takeWhile (fun l => !(jsTrim l).isEmpty)
      = [str "Hi"] := by
    simp only [List.takeWhile_cons, hpHi, hpw, if_true, Bool.false_eq_true, if_false]
  have hdrop : ([str "Hi", w, str "there"].dropWhile (fun l => !(jsTrim l).isEmpty)).drop 1
      = [str "there"] := by
    simp only [List.dropWhile_cons, hpHi, hpw, if_true, Bool.false_eq_true, if_false]
    rfl
  rw [htake, hdrop]
  rw [show (4 : Nat) = 3 + 1 from rfl, parseLinesGo_skip1 3 (str "there") [] (by decide)]
  rw [show parseLinesGo 3 ([] : List (List Char)) = .ok [] from rfl]
  show (Except.ok [(⟨1, some (tsVal 0 0 0 0), some (tsVal 0 0 1 0),
      joinWith ['\n'] [str "Hi"]⟩ : Subtitle)] : Except Unit (List Subtitle)) = _
  simp only [joinWith]
  norm_num [tsVal]

/-- C10: a line containing only whitespace delimits a cue's text exactly like
an empty line — accumulation stops at the first line whose trimmed content is
empty, so such a line inside a cue terminates the text instead of being
preserved in it (the whole input having been trimmed before splitting). -/
theorem c10_ws_only_line_delimits_text (w : List Char) (hw1 : jsTrim w = [])
    (hw2 : ('\n' : Char) ∉ w) (hw3 : ('\r' : Char) ∉ w) :
    parseSrt (joinWith ['\n']
        [str "1", str "00:00:00,000 --> 00:00:01,000", str "Hi", w, str "there"])
      = .ok [⟨1, some 0, some 1, str "Hi"⟩] ∧
    parseSrt (joinWith ['\n']
        [str "1", str "00:00:00,000 --> 00:00:01,000", str "Hi", [], str "there"])
      = .ok [⟨1, some 0, some 1, str "Hi"⟩] :=
  ⟨parseSrt_wsDelimitedCue w hw1 hw2 hw3,
   parseSrt_wsDelimitedCue [] rfl (by decide) (by decide)⟩

theorem c10_witness :
    jsTrim [' ', '\t'] = [] ∧ ('\n' : Char) ∉ [' ', '\t'] ∧ ('\r' : Char) ∉ [' ', '\t'] ∧
    (parseSrt (joinWith ['\n']
        [str "1", str "00:00:00,000 --> 00:00:01,000", str "Hi", [' ', '\t'], str "there"])
      = .ok [⟨1, some 0, some 1, str "Hi"⟩] ∧
    parseSrt (joinWith ['\n']
        [str "1", str "00:00:00,000 --> 00:00:01,000", str "Hi", [], str "there"])
      = .ok [⟨1, some 0, some 1, str "Hi"⟩]) :=
  ⟨by decide, by decide, by decide,
   c10_ws_only_line_delimits_text [' ', '\t'] (by decide) (by decide) (by decide)⟩

/-- C5 (amended): for every sequence of well-formed cues (integer index line,
timing line `HH:MM:SS,mmm --> HH:MM:SS,mmm`, one or more non-blank text lines,
blank separator line), `parseSrt` returns exactly the cues' entries in order,
each with start and end equal to `H*3600 + M*60 + S + ms/1000` of its halves
and text equal to the cue's lines joined by newline — provided the final text
line of the final cue does not end in a whitespace character, since the
parser trims the whole input first and would strip such characters. -/
theorem c5_parser_roundtrip (cues : List Cue) (hwf : ∀ c ∈ cues, goodCue c)
    (hlast : ∀ cl ∈ cues.getLast?, ∀ tl ∈ cl.text.getLast?, ∀ ch ∈ tl.getLast?,
      ch.isWhitespace = false) :
    parseSrt (renderFile cues) = .ok (cues.map cueSubtitle) :=
  parseSrt_renderFile cues hwf hlast

theorem c5_witness :
    (∀ c ∈ [(⟨1, 0, 0, 1, 500, 0, 0, 2, 750, [str "Hello", str "big world"]⟩ : Cue),
        (⟨2, 0, 0, 3, 0, 0, 0, 4, 0, [str "again"]⟩ : Cue)], goodCue c) ∧
    parseSrt (renderFile [⟨1, 0, 0, 1, 500, 0, 0, 2, 750, [str "Hello", str "big world"]⟩,
        ⟨2, 0, 0, 3, 0, 0, 0, 4, 0, [str "again"]⟩])
      = .ok ([(⟨1, 0, 0, 1, 500, 0, 0, 2, 750, [str "Hello", str "big world"]⟩ : Cue),
          ⟨2, 0, 0, 3, 0, 0, 0, 4, 0, [str "again"]⟩].map cueSubtitle) :=
  ⟨by decide,
   c5_parser_roundtrip _ (by decide)
     (by
       intro cl hcl tl htl ch hch
       rw [show ([(⟨1, 0, 0, 1, 500, 0, 0, 2, 750, [str "Hello", str "big world"]⟩ : Cue),
           ⟨2, 0, 0, 3, 0, 0, 0, 4, 0, [str "again"]⟩] : List Cue).getLast?
           = some ⟨2, 0, 0, 3, 0, 0, 0, 4, 0, [str "again"]⟩ from rfl] at hcl
       injection hcl with hcl
       subst hcl
       rw [show ((⟨2, 0, 0, 3, 0, 0, 0, 4, 0, [str "again"]⟩ : Cue).text.getLast?)
           = some (str "again") from rfl] at htl
       injection htl with htl
       subst htl
       rw [show (str "again").getLast? = some 'n' from rfl] at hch
       injection hch with hch
       subst hch
       decide)⟩

def c5cexCue : Cue := ⟨1, 0, 0, 0, 0, 0, 0, 1, 0, [str "Hi "]⟩

/-- C5 counterexample: the cue with the single non-blank text line `"Hi "`
(trailing space) is well formed, yet parsing its rendering does not return the
entry with text `"Hi "` — the parser's initial trim strips the trailing space,
so the parsed entry's text is `"Hi"`. -/
theorem c5_counterexample :
    goodCue c5cexCue ∧
    parseSrt (renderFile [c5cexCue]) ≠ .ok ([c5cexCue].map cueSubtitle) := by
  refine ⟨by decide, fun h => ?_⟩
  have h2 := congrArg (Except.map (List.map Subtitle.text)) h
  rw [show Except.map (List.map Subtitle.text) (parseSrt (renderFile [c5cexCue]))
      = .ok [str "Hi"] from by decide] at h2
  rw [show Except.map (List.map Subtitle.text)
        (Except.ok ([c5cexCue].map cueSubtitle) : Except Unit (List Subtitle))
      = .ok [str "Hi "] from by decide] at h2
  exact absurd h2 (by decide)

/-! ### Totality of the parser (C4) -/

/-- A line on which the parser cannot throw if it is consulted as a timing
line: either it does not contain `-->` at all (and is skipped), or splitting
it on `' --> '` yields at least two halves, each of whose trimmed forms has at
least three `:`-separated fields. -/
def safeLineB (l : List Char) : Bool :=
  !(containsSeq (str "-->") l) ||
    (match splitSeq (str " --> ") l with
     | a :: b :: _ =>
       decide (3 ≤ (splitSeq [':'] (jsTrim a)).length) &&
         decide (3 ≤ (splitSeq [':'] (jsTrim b)).length)
     | _ => false)

theorem parseTimestamp_isOk (ts : List Char) (h : 3 ≤ (splitSeq [':'] ts).length) :
    ∃ v, parseTimestamp ts = .ok v := by
  unfold parseTimestamp
  cases hs : splitSeq [':'] ts with
  | nil => rw [hs] at h; simp at h
  | cons x t1 =>
    cases t1 with
    | nil => rw [hs] at h; simp at h
    | cons y t2 =>
      cases t2 with
      | nil => rw [hs] at h; simp at h
      | cons z t3 =>
        dsimp only
        split <;> exact ⟨_, rfl⟩

theorem parseLinesGo_total :
    ∀ (fuel : Nat) (lines : List (List Char)), lines.length ≤ fuel →
      (∀ l ∈ lines, safeLineB l = true) → ∃ out, parseLinesGo fuel lines = .ok out := by
  intro fuel
  induction fuel with
  | zero =>
    intro lines hlen _
    have : lines = [] := List.length_eq_zero.mp (Nat.le_zero.mp hlen)
    subst this
    exact ⟨[], rfl⟩
  | succ f ih =>
    intro lines hlen hsafe
    cases lines with
    | nil => exact ⟨[], rfl⟩
    | cons line rest =>
      simp only [List.length_cons] at hlen
      cases hid : jsParseInt line with
      | none =>
        rw [parseLinesGo_skip1 f line rest hid]
        exact ih rest (by omega) (fun l hl => hsafe l (List.mem_cons_of_mem line hl))
      | some idv =>
        cases rest with
        | nil =>
          refine ⟨[], ?_⟩
          show parseLinesGo (f + 1) [line] = .ok []
          simp only [parseLinesGo, hid]
        | cons timeLine rest2 =>
          by_cases hcond : timeLine = [] ∨ containsSeq (str "-->") timeLine = false
          · rw [parseLinesGo_skip2 f line timeLine rest2 idv hid hcond]
            refine ih rest2 ?_ (fun l hl =>
              hsafe l (List.mem_cons_of_mem line (List.mem_cons_of_mem timeLine hl)))
            simp only [List.length_cons] at hlen
            omega
          · push_neg at hcond
            obtain ⟨hne, hct⟩ := hcond
            have hct' : containsSeq (str "-->") timeLine = true := by
              cases hcc : containsSeq (str "-->") timeLine with
              | false => exact absurd hcc hct
              | true => rfl
            have hsl := hsafe timeLine (List.mem_cons_of_mem line (List.mem_cons_self _ _))
            unfold safeLineB at hsl
            rw [hct'] at hsl
            simp only [Bool.not_true, Bool.false_or] at hsl
            cases hsp : splitSeq (str " --> ") timeLine with
            | nil => rw [hsp] at hsl; simp at hsl
            | cons a t1 =>
              cases t1 with
              | nil => rw [hsp] at hsl; simp at hsl
              | cons b t2 =>
                rw [hsp] at hsl
                simp only [Bool.and_eq_true, decide_eq_true_eq] at hsl
                obtain ⟨hv1, hsta⟩ := parseTimestamp_isOk (jsTrim a) hsl.1
                obtain ⟨hv2, hena⟩ := parseTimestamp_isOk (jsTrim b) hsl.2
                rw [parseLinesGo_cueStep f line timeLine rest2 idv a b t2 hv1 hv2
                  hid hne hct' hsp hsta hena]
                have hr3len :
                    ((rest2.dropWhile (fun l => !(jsTrim l).isEmpty)).drop 1).length ≤ f := by
                  have h1 : (rest2.dropWhile (fun l => !(jsTrim l).isEmpty)).length ≤
                      rest2.length :=
                    (List.dropWhile_sublist (fun l => !(jsTrim l).isEmpty)).length_le
                  have h2 := List.length_drop 1 (rest2.dropWhile (fun l => !(jsTrim l).isEmpty))
                  simp only [List.length_cons] at hlen
                  omega
                have hr3mem : ∀ l ∈ (rest2.dropWhile (fun l => !(jsTrim l).isEmpty)).drop 1,
                    safeLineB l = true := by
                  intro l hl
                  have h1 : l ∈ rest2 :=
                    ((List.drop_sublist 1 _).trans
                      (List.dropWhile_sublist (fun l => !(jsTrim l).isEmpty))).subset hl
                  exact hsafe l (List.mem_cons_of_mem line (List.mem_cons_of_mem timeLine h1))
                obtain ⟨out, hout⟩ := ih _ hr3len hr3mem
                rw [hout]
                exact ⟨_, rfl⟩

/-- C4 counterexample: the timing line `00:00:00,000-->00:00:01,000` contains
`-->` but not the spaced separator `' --> '`, so `timeLine.split(' --> ')`
yields one element, `endStr` is `undefined`, and `endStr.trim()` throws: the
claim that `parseSrt` never throws fails on this input. -/
theorem c4_counterexample :
    parseSrt (str "1\n00:00:00,000-->00:00:01,000\nHi") = .error () := by decide

/-- C4 (amended): `parseSrt` returns a list of entries without throwing for
every input string in which each line that contains `-->` splits on `' --> '`
into at least two halves whose trimmed forms each have at least three
`:`-separated fields; malformed cues within such inputs are silently skipped.
On other inputs the parse can throw (see the counterexample). -/
theorem c4_parser_totality (s : List Char)
    (hsafe : ∀ l ∈ splitSeq ['\n'] ((jsTrim s).filter (fun c => c ≠ '\r')),
      safeLineB l = true) :
    ∃ out, parseSrt s = .ok out :=
  parseLinesGo_total _ _ (Nat.le_refl _) hsafe

theorem c4_witness :
    ∃ out, parseSrt (str "junk\n1\n00:00:00,000 --> 00:00:01,000\nHi\n\n2\nbroken") = .ok out :=
  c4_parser_totality (str "junk\n1\n00:00:00,000 --> 00:00:01,000\nHi\n\n2\nbroken") (by decide)

/-! ### Segmenter lemmas -/

theorem chooseBlockSize_facts (minB maxB remaining r : Nat)
    (hmin : 1 ≤ minB) (hmax : minB ≤ maxB) (hrem : 1 ≤ remaining) :
    1 ≤ chooseBlockSize minB maxB remaining r ∧
    chooseBlockSize minB maxB remaining r ≤ remaining ∧
    (remaining ≤ minB → chooseBlockSize minB maxB remaining r = remaining) ∧
    (minB ≤ chooseBlockSize minB maxB remaining r ∨ remaining < minB) ∧
    (chooseBlockSize minB maxB remaining r < remaining →
      minB ≤ remaining - chooseBlockSize minB maxB remaining r ∧
      chooseBlockSize minB maxB remaining r ≤ maxB ∧
      minB ≤ chooseBlockSize minB maxB remaining r) := by
  unfold chooseBlockSize
  by_cases hA : remaining ≤ minB
  · rw [if_pos hA]
    exact ⟨hrem, Nat.le_refl _, fun _ => rfl,
      by rcases Nat.lt_or_ge remaining minB with h | h; exacts [Or.inr h, Or.inl h],
      fun h => absurd h (by omega)⟩
  · rw [if_neg hA]
    push_neg at hA
    have hcmin : min minB remaining = minB := Nat.min_eq_left (Nat.le_of_lt hA)
    have hcmaxlo : minB ≤ min maxB remaining := Nat.le_min.mpr ⟨hmax, Nat.le_of_lt hA⟩
    have hcmaxhi : min maxB remaining ≤ remaining := Nat.min_le_right _ _
    have hcmaxmaxB : min maxB remaining ≤ maxB := Nat.min_le_left _ _
    set draw := min minB remaining + r % (min maxB remaining - min minB remaining + 1)
      with hdraw
    have hdrawlo : minB ≤ draw := by rw [hdraw, hcmin]; omega
    have hdrawhi : draw ≤ min maxB remaining := by
      have hm : r % (min maxB remaining - min minB remaining + 1) <
          min maxB remaining - min minB remaining + 1 :=
        Nat.mod_lt r (by omega)
      rw [hdraw, hcmin]
      rw [hcmin] at hm
      omega
    by_cases hB : remaining - min maxB remaining < minB ∧ minB < remaining
    · rw [if_pos hB]
      by_cases hC : draw < remaining ∧ remaining - draw < minB
      · rw [if_pos hC]
        exact ⟨hrem, Nat.le_refl _, fun h => rfl, Or.inl (Nat.le_of_lt hA),
          fun h => absurd h (by omega)⟩
      · rw [if_neg hC]
        refine ⟨by omega, by omega, fun h => absurd h (by omega), Or.inl hdrawlo, fun h => ?_⟩
        rw [Decidable.not_and_iff_or_not] at hC
        rcases hC with h2 | h2
        · exact absurd h h2
        · push_neg at h2
          exact ⟨h2, by omega, hdrawlo⟩
    · rw [if_neg hB]
      rw [Decidable.not_and_iff_or_not] at hB
      rcases hB with h2 | h2
      · push_neg at h2
        exact ⟨by omega, by omega, fun h => absurd h (by omega), Or.inl hdrawlo,
          fun h => ⟨by omega, by omega, hdrawlo⟩⟩
      · exact absurd hA (by omega)

theorem dropLast_cons_of_ne_nil {α : Type} (a : α) (l : List α) (h : l ≠ []) :
    (a :: l).dropLast = a :: l.dropLast := by
  cases l with
  | nil => exact absurd rfl h
  | cons b r => rfl

theorem createBlocksAux_spec (minB maxB : Nat) (hmin : 1 ≤ minB) (hmax : minB ≤ maxB) :
    ∀ (fuel : Nat) (rest : List Subtitle) (rands : List Nat) (idx : Nat),
      rest.length ≤ fuel →
      ∃ bs, createBlocksAux minB maxB fuel rest rands idx = some bs ∧
        (bs.map Block.subtitles).join = rest ∧
        (∀ b ∈ bs.dropLast, minB ≤ b.subtitles.length ∧ b.subtitles.length ≤ maxB) ∧
        (∀ b, bs.getLast? = some b → minB ≤ b.subtitles.length ∨ rest.length < minB) ∧
        (rest.length < minB → bs.length ≤ 1) ∧
        (rest = [] → bs = []) := by
  intro fuel
  induction fuel with
  | zero =>
    intro rest rands idx hlen
    have : rest = [] := List.length_eq_zero.mp (Nat.le_zero.mp hlen)
    subst this
    exact ⟨[], rfl, rfl, by simp, by simp, fun _ => by simp, fun _ => rfl⟩
  | succ f ih =>
    intro rest rands idx hlen
    cases rest with
    | nil => exact ⟨[], rfl, rfl, by simp, by simp, fun _ => by simp, fun _ => rfl⟩
    | cons x xs =>
      obtain ⟨f1, f2, f3, f4, f5⟩ := chooseBlockSize_facts minB maxB (x :: xs).length
        (rands.headD 0) hmin hmax (by simp)
      set bsz := chooseBlockSize minB maxB (x :: xs).length (rands.headD 0) with hbsz
      clear_value bsz
      have hchunk_len : ((x :: xs).take bsz).length = bsz := by
        rw [List.length_take]
        omega
      obtain ⟨c0, ctail, hchunk⟩ : ∃ c0 ctail, (x :: xs).take bsz = c0 :: ctail := by
        cases hc : (x :: xs).take bsz with
        | nil =>
          rw [hc] at hchunk_len
          simp at hchunk_len
          omega
        | cons a b => exact ⟨a, b, rfl⟩
      have hdroplen_eq : ((x :: xs).drop bsz).length = (x :: xs).length - bsz := by
        rw [List.length_drop]
      have hdlen : ((x :: xs).drop bsz).length ≤ f := by
        rw [hdroplen_eq]
        have hxx : (x :: xs).length = xs.length + 1 := rfl
        simp only [List.length_cons] at hlen
        omega
      obtain ⟨bs', hbs', hjoin', hdrop', hlast', hsmall', hnil'⟩ :=
        ih ((x :: xs).drop bsz) (if (x :: xs).length ≤ minB then rands else rands.tail)
          (idx + 1) hdlen
      have hdrop_nil_iff : (x :: xs).drop bsz = [] ↔ (x :: xs).length ≤ bsz := by
        constructor
        · intro h
          have h2 := congrArg List.length h
          rw [hdroplen_eq] at h2
          simp only [List.length_nil] at h2
          omega
        · intro h
          exact List.drop_eq_nil_of_le h
      have hclen : (c0 :: ctail).length = bsz := by rw [← hchunk]; exact hchunk_len
      -- the block pushed in this iteration
      set blk : Block :=
        { id := str "block-" ++ natRepr (idx + 1),
          subtitles := c0 :: ctail,
          text := joinWith ['\n'] ((c0 :: ctail).map Subtitle.text),
          duration := jsub ((c0 :: ctail).getLast (by simp)).«end» c0.start } with hblk
      have hstep : createBlocksAux minB maxB (f + 1) (x :: xs) rands idx =
          some (blk :: bs') := by
        simp only [createBlocksAux]
        rw [← hbsz, hchunk]
        rw [show (c0 :: ctail).head? = some c0 from rfl,
          show (c0 :: ctail).getLast? = some ((c0 :: ctail).getLast (by simp)) from
            (List.getLast?_eq_getLast (c0 :: ctail) (by simp))]
        rw [hbs']
        rfl
      refine ⟨blk :: bs', hstep, ?_, ?_, ?_, ?_, fun h => by simp at h⟩
      · -- partition
        simp only [List.map_cons, List.join]
        show (c0 :: ctail) ++ (bs'.map Block.subtitles).join = x :: xs
        rw [← hchunk, hjoin', List.take_append_drop]
      · -- interior blocks
        intro b hb
        by_cases hbs'nil : bs' = []
        · subst hbs'nil
          simp at hb
        · rw [dropLast_cons_of_ne_nil blk bs' hbs'nil] at hb
          rcases List.mem_cons.mp hb with h | h
          · subst h
            have hdne : (x :: xs).drop bsz ≠ [] := fun hd => hbs'nil (hnil' hd)
            have hblt : bsz < (x :: xs).length := by
              rcases Nat.lt_or_ge bsz (x :: xs).length with h2 | h2
              · exact h2
              · exact absurd (List.drop_eq_nil_of_le h2) hdne
            obtain ⟨g1, g2, g3⟩ := f5 hblt
            show minB ≤ (c0 :: ctail).length ∧ (c0 :: ctail).length ≤ maxB
            rw [hclen]
            exact ⟨g3, g2⟩
          · exact hdrop' b h
      · -- last block
        intro b hb
        by_cases hbs'nil : bs' = []
        · subst hbs'nil
          have hbb : blk = b := by simpa using hb
          subst hbb
          show minB ≤ (c0 :: ctail).length ∨ (x :: xs).length < minB
          rw [hclen]
          rcases f4 with h | h
          · exact Or.inl h
          · exact Or.inr h
        · obtain ⟨b2, r2, hb2⟩ : ∃ b2 r2, bs' = b2 :: r2 := by
            cases hbb : bs' with
            | nil => exact absurd hbb hbs'nil
            | cons a r => exact ⟨a, r, rfl⟩
          rw [hb2] at hb
          rw [List.getLast?_cons_cons] at hb
          rcases hlast' b (hb2 ▸ hb) with h | h
          · exact Or.inl h
          · -- the recursive remainder was below minB yet non-empty: impossible
            exfalso
            have hdne : (x :: xs).drop bsz ≠ [] := fun hd => hbs'nil (hnil' hd)
            have hblt : bsz < (x :: xs).length := by
              rcases Nat.lt_or_ge bsz (x :: xs).length with h2 | h2
              · exact h2
              · exact absurd (List.drop_eq_nil_of_le h2) hdne
            obtain ⟨g1, _, _⟩ := f5 hblt
            rw [hdroplen_eq] at h
            omega
      · -- short input gives a single block
        intro h
        have hle : (x :: xs).length ≤ minB := Nat.le_of_lt h
        have hbszeq : bsz = (x :: xs).length := f3 hle
        have hdnil : (x :: xs).drop bsz = [] := hdrop_nil_iff.mpr (by omega)
        have : bs' = [] := hnil' hdnil
        subst this
        simp

/-- C1: for every entry sequence, every `minSize ≥ 1` with `minSize ≤ maxSize`
and every sequence of random draws, `createBlocks` succeeds and the
concatenation of the returned blocks' subtitle lists is exactly the input —
every entry in exactly one block, in order, nothing skipped, duplicated or
reordered — and empty input yields zero blocks. -/
theorem c1_segmentation_partition (subs : List Subtitle) (minB maxB : Nat)
    (rands : List Nat) (hmin : 1 ≤ minB) (hmax : minB ≤ maxB) :
    ∃ bs, createBlocks subs minB maxB rands = some bs ∧
      (bs.map Block.subtitles).join = subs ∧ (subs = [] → bs = []) := by
  obtain ⟨bs, h1, h2, _, _, _, h6⟩ :=
    createBlocksAux_spec minB maxB hmin hmax subs.length subs rands 0 (Nat.le_refl _)
  exact ⟨bs, h1, h2, h6⟩

theorem c1_witness :
    ∃ bs, createBlocks [⟨1, some 0, some 1, str "a"⟩, ⟨2, some 1, some 2, str "b"⟩,
        ⟨3, some 2, some 3, str "c"⟩] 1 2 [0] = some bs ∧
      (bs.map Block.subtitles).join = [⟨1, some 0, some 1, str "a"⟩,
        ⟨2, some 1, some 2, str "b"⟩, ⟨3, some 2, some 3, str "c"⟩] ∧
      ([(⟨1, some 0, some 1, str "a"⟩ : Subtitle), ⟨2, some 1, some 2, str "b"⟩,
        ⟨3, some 2, some 3, str "c"⟩] = [] → bs = []) :=
  c1_segmentation_partition _ 1 2 [0] (by decide) (by decide)

/-- C2: every returned block except possibly the last has size in
`[minSize, maxSize]`; the last block may exceed `maxSize` but is never smaller
than `minSize` unless it is the only block. -/
theorem c2_block_size_bounds (subs : List Subtitle) (minB maxB : Nat)
    (rands : List Nat) (hmin : 1 ≤ minB) (hmax : minB ≤ maxB) :
    ∃ bs, createBlocks subs minB maxB rands = some bs ∧
      (∀ b ∈ bs.dropLast, minB ≤ b.subtitles.length ∧ b.subtitles.length ≤ maxB) ∧
      (∀ b, bs.getLast? = some b → minB ≤ b.subtitles.length ∨ bs.length = 1) := by
  obtain ⟨bs, h1, _, h3, h4, h5, _⟩ :=
    createBlocksAux_spec minB maxB hmin hmax subs.length subs rands 0 (Nat.le_refl _)
  refine ⟨bs, h1, h3, fun b hb => ?_⟩
  rcases h4 b hb with h | h
  · exact Or.inl h
  · right
    have hne : bs ≠ [] := by
      intro hn
      rw [hn] at hb
      simp at hb
    have h1len : 1 ≤ bs.length := List.length_pos.mpr hne
    have h2len : bs.length ≤ 1 := h5 h
    omega

theorem c2_witness :
    ∃ bs, createBlocks [⟨1, some 0, some 1, str "a"⟩, ⟨2, some 1, some 2, str "b"⟩,
        ⟨3, some 2, some 3, str "c"⟩] 2 3 [1] = some bs ∧
      (∀ b ∈ bs.dropLast, 2 ≤ b.subtitles.length ∧ b.subtitles.length ≤ 3) ∧
      (∀ b, bs.getLast? = some b → 2 ≤ b.subtitles.length ∨ bs.length = 1) :=
  c2_block_size_bounds _ 2 3 [1] (by decide) (by decide)

/-- C8: under the precondition `minSize ≥ 1` and `maxSize ≥ minSize`,
`createBlocks` terminates on every finite entry sequence: a fuel budget of
one iteration per entry suffices, since each loop iteration consumes at least
one entry. -/
theorem c8_segmenter_terminates (subs : List Subtitle) (minB maxB : Nat)
    (rands : List Nat) (hmin : 1 ≤ minB) (hmax : minB ≤ maxB) :
    (createBlocks subs minB maxB rands).isSome = true := by
  obtain ⟨bs, h1, _⟩ :=
    createBlocksAux_spec minB maxB hmin hmax subs.length subs rands 0 (Nat.le_refl _)
  unfold createBlocks
  rw [h1]
  rfl

theorem c8_witness :
    (createBlocks [⟨1, some 0, some 1, str "a"⟩, ⟨2, some 1, some 2, str "b"⟩,
      ⟨3, some 2, some 3, str "c"⟩, ⟨4, some 3, some 4, str "d"⟩] 4 8 []).isSome = true :=
  c8_segmenter_terminates _ 4 8 [] (by decide) (by decide)

def c3subs : List Subtitle := [⟨1, some 0, some 2, str "Hi"⟩, ⟨2, some 2, some 5, str "there friend"⟩]

/-- C3 counterexample: with `minSize = 1`, a first draw of `0` yields a
candidate block size of `1`, and the leftover of one entry is not *strictly*
smaller than `minSize = 1`, so the look-ahead merge does not fire and
`createBlocks` returns two blocks — not one, contradicting the claim that
every draw sequence yields exactly one block. -/
theorem c3_counterexample :
    Option.map List.length (createBlocks c3subs 1 5 [0]) = some 2 := by decide

theorem createBlocksAux_step (minB maxB f : Nat) (x : Subtitle) (xs : List Subtitle)
    (rands : List Nat) (idx : Nat) (bsz : Nat) (c0 lst : Subtitle) (ctail : List Subtitle)
    (hbsz : chooseBlockSize minB maxB (x :: xs).length (rands.headD 0) = bsz)
    (hchunk : (x :: xs).take bsz = c0 :: ctail)
    (hlast : (c0 :: ctail).getLast? = some lst) :
    createBlocksAux minB maxB (f + 1) (x :: xs) rands idx =
      (createBlocksAux minB maxB f ((x :: xs).drop bsz)
          (if (x :: xs).length ≤ minB then rands else rands.tail) (idx + 1)).map
        (fun bs =>
          { id := str "block-" ++ natRepr (idx + 1),
            subtitles := c0 :: ctail,
            text := joinWith ['\n'] ((c0 :: ctail).map Subtitle.text),
            duration := jsub lst.«end» c0.start } :: bs) := by
  simp only [createBlocksAux]
  rw [hbsz, hchunk, hlast]
  rfl

/-- C3 (amended): for the two-entry scenario with `minSize = 1, maxSize = 5`,
`createBlocks` returns exactly one block — of duration `5` and combined text
`"Hi\nthere friend"` — for every draw sequence whose first draw selects
candidate size `2` (odd raw draw, as the draw is folded by `% 2` into
`{1, 2}`); an even first draw selects size `1` and produces two blocks
instead (see the counterexample). -/
theorem c3_two_entry_scenario (r : Nat) (rest : List Nat) (hr : r % 2 = 1) :
    createBlocks c3subs 1 5 (r :: rest) =
      some [⟨str "block-1", c3subs, str "Hi\nthere friend", some 5⟩] := by
  have hcbs : chooseBlockSize 1 5 2 r = 2 := by
    unfold chooseBlockSize
    norm_num [hr]
  show createBlocksAux 1 5 2 c3subs (r :: rest) 0 = _
  rw [show (2 : Nat) = 1 + 1 from rfl]
  show createBlocksAux 1 5 (1 + 1)
      (⟨1, some 0, some 2, str "Hi"⟩ :: [⟨2, some 2, some 5, str "there friend"⟩])
      (r :: rest) 0 = _
  rw [createBlocksAux_step 1 5 1 ⟨1, some 0, some 2, str "Hi"⟩
      [⟨2, some 2, some 5, str "there friend"⟩] (r :: rest) 0 2
      ⟨1, some 0, some 2, str "Hi"⟩ ⟨2, some 2, some 5, str "there friend"⟩
      [⟨2, some 2, some 5, str "there friend"⟩] hcbs rfl rfl]
  rw [show createBlocksAux 1 5 1
      ((⟨1, some 0, some 2, str "Hi"⟩ ::
        [⟨2, some 2, some 5, str "there friend"⟩]).drop 2)
      (if (⟨1, some 0, some 2, str "Hi"⟩ ::
        [(⟨2, some 2, some 5, str "there friend"⟩ : Subtitle)]).length ≤ 1
       then r :: rest else (r :: rest).tail) (0 + 1) = some [] from rfl]
  show some _ = some _
  congr 1
  have hid : str "block-" ++ natRepr (0 + 1) = str "block-1" := by decide
  have htext : joinWith ['\n'] (List.map Subtitle.text
      [(⟨1, some 0, some 2, str "Hi"⟩ : Subtitle), ⟨2, some 2, some 5, str "there friend"⟩])
      = str "Hi\nthere friend" := by decide
  have hdur : jsub (some (5 : ℚ)) (some (0 : ℚ)) = some 5 := by
    simp only [jsub]
    norm_num
  simp only [hid, htext, hdur, c3subs]

theorem c3_witness :
    createBlocks c3subs 1 5 [1] =
      some [⟨str "block-1", c3subs, str "Hi\nthere friend", some 5⟩] :=
  c3_two_entry_scenario 1 [] (by decide)

/-! ### Aggregator lemmas -/

theorem foldl_add_tokenCount (l : List Subtitle) :
    ∀ n : Nat, l.foldl (fun acc s => acc + tokenCount s.text) n =
      n + (l.map (fun s => tokenCount s.text)).sum := by
  induction l with
  | nil => intro n; simp
  | cons x xs ih =>
    intro n
    simp only [List.foldl_cons, List.map_cons, List.sum_cons]
    rw [ih (n + tokenCount x.text)]
    omega

def c6subs : List Subtitle :=
  [⟨1, some 0, some 10, str "aa bb"⟩, ⟨2, some 10, some 20, str "cc dd"⟩,
   ⟨3, some 20, some 60, str "ee ff"⟩]

/-- C6: for every non-empty entry sequence, `analyzeSrt` reports
`totalWords` as the sum over entries of whitespace-delimited non-empty
tokens, `totalDurationSeconds` as the end time of the last entry, and
`averageWPM` as `round(totalWords / totalDurationSeconds * 60)` (JS
`Math.round x = ⌊x + 1/2⌋`) when the duration is positive and `0` otherwise;
in particular three two-word entries whose last end time is `60` give
`totalWords = 6` and `averageWPM = 6`. -/
theorem c6_average_wpm (subs : List Subtitle) (blocks : List Block) (lastS : Subtitle)
    (hlast : subs.getLast? = some lastS) :
    ((analyzeSrt subs blocks).totalWords = (subs.map (fun s => tokenCount s.text)).sum ∧
     (analyzeSrt subs blocks).totalDurationSeconds = lastS.«end» ∧
     (analyzeSrt subs blocks).averageWPM =
       (match lastS.«end» with
        | some d => if 0 < d then
            ⌊((subs.map (fun s => tokenCount s.text)).sum : ℚ) / d * 60 + 1 / 2⌋
          else 0
        | none => 0)) ∧
    analyzeSrt c6subs [] = ⟨3, some 60, 6, 6, 0⟩ := by
  constructor
  · unfold analyzeSrt
    rw [hlast]
    refine ⟨?_, rfl, ?_⟩
    · show List.foldl (fun (acc : Nat) (s : Subtitle) => acc + tokenCount s.text) 0 subs = _
      rw [foldl_add_tokenCount subs 0]
      exact Nat.zero_add _
    · show (match lastS.«end» with
        | some d => if 0 < d then
            ⌊((List.foldl (fun (acc : Nat) (s : Subtitle) => acc + tokenCount s.text) 0 subs
                : Nat) : ℚ) / d * 60 + 1 / 2⌋
          else 0
        | none => 0) = _
      rw [foldl_add_tokenCount subs 0, Nat.zero_add]
  · show analyzeSrt c6subs [] = _
    unfold analyzeSrt
    rw [show c6subs.getLast? = some ⟨3, some 20, some 60, str "ee ff"⟩ from rfl]
    simp only
    have hW : c6subs.foldl (fun acc s => acc + tokenCount s.text) 0 = 6 := by decide
    rw [hW]
    have havg : (if 0 < (60 : ℚ) then ⌊((6 : Nat) : ℚ) / 60 * 60 + 1 / 2⌋ else 0) = (6 : ℤ) := by
      rw [if_pos (by norm_num : (0 : ℚ) < 60)]
      have harith : ((6 : Nat) : ℚ) / 60 * 60 + 1 / 2 = 13 / 2 := by norm_num
      rw [harith, Int.floor_eq_iff]
      norm_num
    rw [havg]
    rfl

theorem c6_witness :
    ((analyzeSrt c6subs []).totalWords = (c6subs.map (fun s => tokenCount s.text)).sum ∧
     (analyzeSrt c6subs []).totalDurationSeconds =
       (⟨3, some 20, some 60, str "ee ff"⟩ : Subtitle).«end» ∧
     (analyzeSrt c6subs []).averageWPM =
       (match (⟨3, some 20, some 60, str "ee ff"⟩ : Subtitle).«end» with
        | some d => if 0 < d then
            ⌊((c6subs.map (fun s => tokenCount s.text)).sum : ℚ) / d * 60 + 1 / 2⌋
          else 0
        | none => 0)) ∧
    analyzeSrt c6subs [] = ⟨3, some 60, 6, 6, 0⟩ :=
  c6_average_wpm c6subs [] ⟨3, some 20, some 60, str "ee ff"⟩ rfl

/-- C9: with an empty entry list, `analyzeSrt` returns the all-zero summary
whatever the blocks argument is — the zero-entry branch never reads `blocks`,
so `blockCount` is reported as `0` even for a non-empty blocks list. -/
theorem c9_empty_entries_ignores_blocks (blocks : List Block) :
    analyzeSrt [] blocks = ⟨0, some 0, 0, 0, 0⟩ := rfl

theorem c9_witness :
    analyzeSrt [] [⟨str "block-1", [], str "", none⟩] = ⟨0, some 0, 0, 0, 0⟩ :=
  c9_empty_entries_ignores_blocks [⟨str "block-1", [], str "", none⟩]
